import Mathlib

/-!
Verification development for the prsk-trend view-count forecasting engine.

The TypeScript/JavaScript core (preprocessor, robust slope estimator,
predictor, delta calculator) and the collection-time gap filler are embedded
shallowly:

* JavaScript numbers are idealized as exact arithmetic; a value that the
  JavaScript engine would represent as a non-finite number (NaN, produced in
  this code base only by arithmetic on invalid `Date`s, or an Infinity from a
  division that the code in fact always guards) is modelled as `none` in
  `Option ℚ` / `Option ℝ`.  Arithmetic propagates `none`, comparisons
  involving `none` are false, and `Math.max`/`Math.min` with a `none`
  argument yield `none` — exactly the NaN behaviour of JavaScript.
* a JavaScript `Date` is either a valid instant (an integer count of
  milliseconds since the epoch) or an Invalid Date; note that an Invalid
  Date object is *truthy* in JavaScript, so `if (!t)` does not detect it.
* `Array.prototype.sort` is a stable sort whose comparator results are
  mapped NaN ↦ +0 (ECMA-262 SortCompare); it is modelled by a stable
  insertion sort over the comparator `a - b <= 0 or NaN`.
* local-time `Date` methods (`getMinutes`, `setMinutes`, `setSeconds`) are
  modelled with an ambient fixed timezone offset `off` in milliseconds.
-/

namespace PrskTrend

/-- Arithmetic on JavaScript numbers with NaN modelled as `none`: addition. -/
def jsAdd {α : Type} [LinearOrderedField α] : Option α → Option α → Option α
  | some a, some b => some (a + b)
  | _, _ => none

/-- Subtraction with NaN propagation. -/
def jsSub {α : Type} [LinearOrderedField α] : Option α → Option α → Option α
  | some a, some b => some (a - b)
  | _, _ => none

/-- Multiplication with NaN propagation. -/
def jsMul {α : Type} [LinearOrderedField α] : Option α → Option α → Option α
  | some a, some b => some (a * b)
  | _, _ => none

/-- Division: NaN propagates; a division by exactly 0 yields a non-finite
value (±Infinity or NaN), collapsed to `none`.  The source guards every
division, so the zero-divisor case is never reached on the paths proved
about. -/
def jsDiv {α : Type} [LinearOrderedField α] : Option α → Option α → Option α
  | some a, some b => if b = 0 then none else some (a / b)
  | _, _ => none

/-- Absolute value (`Math.abs`), NaN propagating. -/
def jsAbs {α : Type} [LinearOrderedField α] : Option α → Option α
  | some a => some |a|
  | none => none

/-- Binary `Math.max`: any NaN argument makes the result NaN. -/
def jsMax {α : Type} [LinearOrderedField α] : Option α → Option α → Option α
  | some a, some b => some (max a b)
  | _, _ => none

/-- Strict `<` comparison as in JavaScript: any comparison with NaN is false. -/
def jsLtB {α : Type} [LinearOrderedField α] : Option α → Option α → Bool
  | some a, some b => decide (a < b)
  | _, _ => false

/-- Non-strict `<=` comparison: false whenever one side is NaN. -/
def jsLeB {α : Type} [LinearOrderedField α] : Option α → Option α → Bool
  | some a, some b => decide (a ≤ b)
  | _, _ => false

/-- Strict `>` comparison: false whenever one side is NaN. -/
def jsGtB {α : Type} [LinearOrderedField α] : Option α → Option α → Bool
  | some a, some b => decide (b < a)
  | _, _ => false

/-- JavaScript `x || d` on numbers: `x` when it is truthy (a number other
than 0; NaN is falsy), otherwise the default `d`. -/
def jsOrD {α : Type} [LinearOrderedField α] : Option α → α → α
  | some v, d => if v = 0 then d else v
  | none, d => d

/-- JavaScript `isFinite`: false exactly on the non-finite values. -/
def isFin {α : Type} : Option α → Bool
  | some _ => true
  | none => false

/-- JavaScript `Math.sign` (the code only applies it to nonzero finite
values, where the ±0 distinction is irrelevant). -/
def jsSign {α : Type} [LinearOrderedField α] : Option α → Option α
  | none => none
  | some x => some (if 0 < x then 1 else if x < 0 then -1 else 0)

/-- Coercion of an idealized rational JavaScript number to a real one. -/
def qr (x : Option ℚ) : Option ℝ := x.map (fun q => (q : ℝ))

/-- Result of constructing a JavaScript `Date`: either a valid instant
(integer milliseconds since the epoch) or an Invalid Date (time value NaN).
An Invalid Date object is truthy. -/
inductive JSDate : Type
  | valid (ms : ℤ)
  | invalid
deriving DecidableEq, Repr

/-- Time value of a `Date` (`getTime()`), NaN for an Invalid Date. -/
def dateNum : JSDate → Option ℚ
  | JSDate.valid ms => some (ms : ℚ)
  | JSDate.invalid => none

/-- Wire-shape history entry.  `datetime`/`date` model the optional string
fields: `none` means the field is absent (or the empty string, which is
falsy); `some d` means a string is present and `new Date` on it (after the
legacy `+ 'T00:00:00.000Z'` suffixing for `date`) yields `d` — which is
`JSDate.invalid` when the string does not parse.  `views` is `none` when the
field is absent. -/
structure HistoryEntry : Type where
  datetime : Option JSDate := none
  date : Option JSDate := none
  views : Option ℤ := none
  predicted : Bool := false
deriving DecidableEq, Repr

/-- The timestamp-resolution ternary used throughout the source:
`h.datetime ? new Date(h.datetime) : (h.date ? new Date(h.date + 'T00:00:00.000Z') : null)`.
The result is `null` (here `none`) only when both fields are absent; a
present-but-unparsable string yields `some JSDate.invalid`. -/
def resolveEntryTime (e : HistoryEntry) : Option JSDate :=
  match e.datetime with
  | some d => some d
  | none => e.date

/-- Preprocessed point: `tsMin` is `t.getTime() / 60000` (NaN for an invalid
timestamp) and `v` is `h.views || 0`.  The `t : Date` field of the source is
represented through `tsMin`, whose ordering is the same as `t.getTime()`. -/
structure Point : Type where
  tsMin : Option ℚ
  v : ℚ
deriving DecidableEq, Repr

/-- Default point, standing for the (unreachable) `undefined` array read. -/
def pt0 : Point := ⟨none, 0⟩

/-- Mapping of one raw entry to a point (the `history.map` body together
with the `filter` dropping `null`s). -/
def toPoint (e : HistoryEntry) : Option Point :=
  match resolveEntryTime e with
  | none => none
  | some (JSDate.valid ms) => some ⟨some ((ms : ℚ) / 60000), ((e.views.getD 0 : ℤ) : ℚ)⟩
  | some JSDate.invalid => some ⟨none, ((e.views.getD 0 : ℤ) : ℚ)⟩

/-- Sort comparator `(a, b) => a.t.getTime() - b.t.getTime()` interpreted as
"`a` may stay before `b`": comparator value ≤ 0, with a NaN comparator value
treated as +0 (ECMA-262 SortCompare). -/
def ptLE (a b : Point) : Bool :=
  match a.tsMin, b.tsMin with
  | some x, some y => decide (x ≤ y)
  | _, _ => true

/-- Numeric sort comparator `(a, b) => a - b` on JavaScript numbers, for
`median`'s `sort`. -/
def numLE {α : Type} [LinearOrderedField α] (a b : Option α) : Bool :=
  match a, b with
  | some x, some y => decide (x ≤ y)
  | _, _ => true

/-- Stable insertion of an element into a sorted list (helper of the stable
sort modelling `Array.prototype.sort`). -/
def jsInsert {α : Type} (le : α → α → Bool) (a : α) : List α → List α
  | [] => [a]
  | b :: l => if le a b then a :: b :: l else b :: jsInsert le a l

/-- Stable sort modelling `Array.prototype.sort(comparator)` (ECMA-262
requires a stable sort; with a consistent comparator the stable result is
unique, so insertion sort is a faithful model). -/
def jsSortBy {α : Type} (le : α → α → Bool) : List α → List α
  | [] => []
  | a :: l => jsInsert le a (jsSortBy le l)

/-- Near-duplicate test of the preprocessor:
`Math.abs(last.tsMin - p.tsMin) < 1e-6` (false when either time is NaN). -/
def nearB (a b : Point) : Bool :=
  jsLtB (jsAbs (jsSub a.tsMin b.tsMin)) (some ((1 : ℚ) / 1000000))

/-- One step of the duplicate-collapsing loop, on the reversed accumulator
(the head of `racc` is the `unique[unique.length - 1]` of the source). -/
def dedupeStep (racc : List Point) (p : Point) : List Point :=
  match racc with
  | [] => [p]
  | last :: rest => if nearB last p then p :: rest else p :: last :: rest

/-- Duplicate collapsing: consecutive sorted points closer than 1e-6 minutes
are collapsed, the later one winning. -/
def dedupe (l : List Point) : List Point :=
  (l.foldl dedupeStep []).reverse

/-- Preprocessor `preprocessHistory`: resolve timestamps (dropping only the
entries where both fields are absent), sort by time, collapse
near-duplicates. -/
def preprocessHistory (h : List HistoryEntry) : List Point :=
  dedupe (jsSortBy ptLE (h.filterMap toPoint))

/-- Median of a list of JavaScript numbers (`median` of the source): 0 on an
empty array, else the middle of the numerically sorted copy. -/
def median (arr : List (Option ℚ)) : Option ℚ :=
  if arr = [] then some 0
  else
    let s := jsSortBy numLE arr
    let m := s.length / 2
    if s.length % 2 = 1 then s.getD m none
    else jsDiv (jsAdd (s.getD (m - 1) none) (s.getD m none)) (some 2)

/-- Median absolute deviation (`mad` of the source). -/
def mad (arr : List (Option ℚ)) : Option ℚ :=
  if arr = [] then some 0
  else median (arr.map (fun x => jsAbs (jsSub x (median arr))))

/-- Exponential moving average of a rate list (`emaOfRates`): seeded with the
first rate, `s = alpha * r + (1 - alpha) * s` for the remaining ones; 0 on an
empty list. -/
noncomputable def emaOfRates (rates : List (Option ℝ)) (alpha : ℝ) : Option ℝ :=
  match rates with
  | [] => some 0
  | r0 :: rest => rest.foldl (fun s r => jsAdd (jsMul (some alpha) r) (jsMul (some (1 - alpha)) s)) r0

/-- Per-segment rates of adjacent point pairs: segments with `dt <= 0` are
skipped (a NaN `dt` is not ≤ 0, so NaN segments are kept and contribute a
NaN rate).  Used both for `segRates` and for the identically computed
`instRates` of the source. -/
def segmentRates : List Point → List (Option ℚ)
  | a :: b :: rest =>
    let dt := jsSub b.tsMin a.tsMin
    if jsLeB dt (some 0) then segmentRates (b :: rest)
    else jsDiv (jsSub (some b.v) (some a.v)) dt :: segmentRates (b :: rest)
  | _ => []

/-- Adjacent-segment rate used by the outlier test, with the clamped
denominator `Math.max(0.0001, dt)`. -/
def outlierRate (a b : Point) : Option ℚ :=
  jsDiv (jsSub (some b.v) (some a.v)) (jsMax (some ((1 : ℚ) / 10000)) (jsSub b.tsMin a.tsMin))

/-- Deviation test: the adjacent rate deviates from the median rate by more
than `OUTLIER_K = 6` times the MAD (false when anything is NaN). -/
def devBad (medR : Option ℚ) (madR : ℚ) (a b : Point) : Bool :=
  jsGtB (jsAbs (jsSub (outlierRate a b) medR)) (some (6 * madR))

/-- Point `i` survives outlier rejection when neither of its adjacent
segment rates deviates. -/
def okAt (pts : List Point) (medR : Option ℚ) (madR : ℚ) (i : ℕ) : Bool :=
  (if i + 1 < pts.length then !devBad medR madR (pts.getD i pt0) (pts.getD (i + 1) pt0) else true)
    && (if 0 < i then !devBad medR madR (pts.getD (i - 1) pt0) (pts.getD i pt0) else true)

/-- The good set: the surviving points, replaced by the full sequence when
fewer than 2 survive (the `splice` fallback). -/
def goodSel (pts : List Point) (medR : Option ℚ) (madR : ℚ) : List Point :=
  let g0 := ((List.range pts.length).filter (okAt pts medR madR)).map (fun i => pts.getD i pt0)
  if g0.length < 2 then pts else g0

/-- Exponential-decay regression weight
`Math.exp(-(Math.abs(x) / HALF_LIFE_MIN) * ln2)` with a 180-minute
half-life, NaN propagating. -/
noncomputable def wlsWeight (x : Option ℚ) : Option ℝ :=
  x.map (fun q => Real.exp (-(|(q : ℝ)| / 180) * Real.log 2))

/-- Accumulated weighted sums of the regression loop. -/
structure WSums : Type where
  S : Option ℝ
  Sx : Option ℝ
  Sy : Option ℝ
  Sxx : Option ℝ
  Sxy : Option ℝ

/-- One iteration of the weighted-sum loop (the arrays `xs`, `ys`, `ws` of
the source are index-wise functions of the good points, so the loop is a
fold over those points). -/
noncomputable def wsumsStep (refTs : Option ℚ) (a : WSums) (p : Point) : WSums :=
  let x : Option ℝ := qr (jsSub p.tsMin refTs)
  let w : Option ℝ := wlsWeight (jsSub p.tsMin refTs)
  let y : Option ℝ := some ((p.v : ℝ))
  ⟨jsAdd a.S w, jsAdd a.Sx (jsMul w x), jsAdd a.Sy (jsMul w y),
    jsAdd a.Sxx (jsMul w (jsMul x x)), jsAdd a.Sxy (jsMul w (jsMul x y))⟩

/-- The weighted sums over the good set. -/
noncomputable def wsums (refTs : Option ℚ) (gs : List Point) : WSums :=
  gs.foldl (wsumsStep refTs) ⟨some 0, some 0, some 0, some 0, some 0⟩

/-- Weighted least squares fit `(slope_reg, intercept)`: the closed-form
solution when the design determinant is not near-singular, otherwise the
two-point fallback `totalDv / (totalDt || 1)`. -/
noncomputable def wlsFit (gs : List Point) : Option ℝ × Option ℝ :=
  let last := gs.getLastD pt0
  let refTs := last.tsMin
  let s := wsums refTs gs
  let denom := jsSub (jsMul s.S s.Sxx) (jsMul s.Sx s.Sx)
  if jsGtB (jsAbs denom) (some ((1 : ℝ) / 1000000000)) then
    let sl := jsDiv (jsSub (jsMul s.S s.Sxy) (jsMul s.Sx s.Sy)) denom
    (sl, jsDiv (jsSub s.Sy (jsMul sl s.Sx)) s.S)
  else
    let totalDv : ℚ := (gs.getLastD pt0).v - (gs.headD pt0).v
    let totalDt : ℚ := jsOrD (jsSub (gs.getLastD pt0).tsMin (gs.headD pt0).tsMin) 1
    let sl : Option ℝ := some (((totalDv / totalDt : ℚ) : ℝ))
    (sl, jsSub (some (((gs.getLastD pt0).v : ℝ))) (jsMul sl (qr (jsSub (gs.getLastD pt0).tsMin refTs))))

/-- Accumulated residual sums of the R² loop. -/
structure RSums : Type where
  SSres : Option ℝ
  SStot : Option ℝ

/-- One iteration of the R² loop. -/
noncomputable def rsumsStep (refTs : Option ℚ) (ic sl ybar : Option ℝ) (a : RSums) (p : Point) : RSums :=
  let x : Option ℝ := qr (jsSub p.tsMin refTs)
  let w : Option ℝ := wlsWeight (jsSub p.tsMin refTs)
  let y : Option ℝ := some ((p.v : ℝ))
  let yhat := jsAdd ic (jsMul sl x)
  ⟨jsAdd a.SSres (jsMul w (jsMul (jsSub y yhat) (jsSub y yhat))),
    jsAdd a.SStot (jsMul w (jsMul (jsSub y ybar) (jsSub y ybar)))⟩

/-- The residual sums over the good set. -/
noncomputable def rsums (refTs : Option ℚ) (ic sl ybar : Option ℝ) (gs : List Point) : RSums :=
  gs.foldl (rsumsStep refTs ic sl ybar) ⟨some 0, some 0⟩

/-- Weighted coefficient of determination: `max(0, 1 - SSres/SStot)` when
`SStot > 1e-9`, else 0; non-finite or negative results are reset to 0. -/
noncomputable def r2of (gs : List Point) (sl ic : Option ℝ) : Option ℝ :=
  let refTs := (gs.getLastD pt0).tsMin
  let s := wsums refTs gs
  let ybar := jsDiv s.Sy s.S
  let rs := rsums refTs ic sl ybar gs
  let r2a := if jsGtB rs.SStot (some ((1 : ℝ) / 1000000000))
    then jsMax (some 0) (jsSub (some 1) (jsDiv rs.SSres rs.SStot)) else some 0
  if !isFin r2a || jsLtB r2a (some 0) then some 0 else r2a

/-- Confidence clamped into [0, 1] (the two `if`s of the source). -/
noncomputable def confClamp (c : Option ℝ) : Option ℝ :=
  let c1 := if jsLtB c (some 0) then some 0 else c
  if jsGtB c1 (some 1) then some 1 else c1

/-- Result record of `computeAdvancedSlope`. -/
structure SlopeInfo : Type where
  slope_reg : Option ℝ
  slope_ema : Option ℝ
  slope_final : Option ℝ
  r2 : Option ℝ
  nPoints : ℕ
  medRate : Option ℚ

/-- Final blending stage of the slope estimator: confidence-weighted blend
of the regression and EMA slopes, replacement of a non-finite or negative
blend by `Math.max(0, slope_ema, slope_reg, 0)`, and the magnitude cap
`max(|medRate| * 10, 1)`. -/
noncomputable def slopeFinalize (slope_reg slope_ema r2 : Option ℝ) (nGood : ℕ)
    (medRate : Option ℚ) : Option ℝ :=
  let nEff : ℕ := min 6 nGood
  let conf := confClamp (jsMul r2 (some ((nEff : ℝ) / 6)))
  let sf0 := jsAdd (jsMul conf slope_reg) (jsMul (jsSub (some 1) conf) slope_ema)
  let sf1 := if !isFin sf0 || jsLtB sf0 (some 0)
    then jsMax (jsMax (jsMax (some 0) slope_ema) slope_reg) (some 0) else sf0
  let cap := jsMax (jsMul (jsAbs (qr medRate)) (some 10)) (some 1)
  if jsGtB (jsAbs sf1) cap then jsMul (jsSign sf1) cap else sf1

/-- The robust slope estimator `computeAdvancedSlope`. -/
noncomputable def computeAdvancedSlope (h : List HistoryEntry) : SlopeInfo :=
  let pts := preprocessHistory h
  let n := pts.length
  if n < 2 then ⟨some 0, some 0, some 0, some 0, n, some 0⟩
  else
    let segRates := segmentRates pts
    if segRates = [] then ⟨some 0, some 0, some 0, some 0, n, some 0⟩
    else
      let medRate := median segRates
      let madRate : ℚ := jsOrD (mad segRates) ((1 : ℚ) / 1000000)
      let goodPts := goodSel pts medRate madRate
      let fit := wlsFit goodPts
      let slope_reg := fit.1
      let r2 := r2of goodPts slope_reg fit.2
      let slope_ema := emaOfRates ((segmentRates pts).map qr) ((1 : ℝ) / 2)
      let sf := slopeFinalize slope_reg slope_ema r2 goodPts.length medRate
      ⟨slope_reg, slope_ema, sf, r2, n, medRate⟩

/-- The predictor `predictValueAt`.  The target instant is a valid `Date`
given by its millisecond time value. -/
noncomputable def predictValueAt (h : List HistoryEntry) (targetMs : ℤ) : ℤ :=
  if h = [] then 0
  else
    let last := h.getLastD {}
    let lastTime := resolveEntryTime last
    let lastViews : ℤ := last.views.getD 0
    match lastTime with
    | none => lastViews
    | some d =>
      let slope : ℝ := jsOrD (computeAdvancedSlope h).slope_final 0
      let deltaMin : Option ℝ := qr (jsDiv (jsSub (some ((targetMs : ℚ))) (dateNum d)) (some 60000))
      let pred0 := jsAdd (some ((lastViews : ℤ) : ℝ)) (jsMul (some slope) deltaMin)
      let pred1 : ℝ := match pred0 with | some p => p | none => ((lastViews : ℤ) : ℝ)
      let pred2 : ℝ := if pred1 < 0 then 0 else pred1
      round pred2

/-- Floor of a millisecond instant to the local half-hour grid
(`floorToHalfHour`), with `off` the ambient timezone offset in milliseconds:
zero the local seconds and milliseconds, then floor the local minutes field
to 0 or 30. -/
def floorToHalfHour (off t : ℤ) : ℤ :=
  let L := t + off
  let L1 := L - L % 60000
  let m := L1 / 60000 % 60
  if m = 0 ∨ m = 30 then L1 - off
  else if m < 30 then L1 - m * 60000 - off
  else L1 - (m - 30) * 60000 - off

/-- Local minutes field (`getMinutes`) of a valid instant. -/
def jsGetMinutes (off t : ℤ) : ℤ := (t + off) / 60000 % 60

/-- Earliest history time `earliestHistoryTime`: the resolved timestamp of
the first entry (`null` when the history is empty or both fields absent). -/
def earliestHistoryTime (h : List HistoryEntry) : Option JSDate :=
  h.head?.bind resolveEntryTime

/-- Base tick selection of the delta calculator: the target tick, clamped
up to the first half-hour tick of the history when the latter is later.  A
`null` or invalid first time leaves the target tick (a comparison with a
NaN `getTime()` is false). -/
def calcBaseTick (off nowMs : ℤ) (h : List HistoryEntry) (days : ℤ) : ℤ :=
  let target := nowMs - days * 86400000
  let targetTick := floorToHalfHour off target
  match earliestHistoryTime h with
  | some (JSDate.valid f) =>
    let firstTick := floorToHalfHour off f
    if targetTick < firstTick then firstTick else targetTick
  | _ => targetTick

/-- The delta calculator `calcDeltaWithPrediction`, with `nowMs` the current
instant (`new Date()`), `off` the ambient timezone offset. -/
noncomputable def calcDeltaWithPrediction (off nowMs : ℤ) (h : List HistoryEntry) (days : ℤ) : ℤ :=
  if h = [] then 0
  else
    let nowPred := predictValueAt h nowMs
    let basePred := predictValueAt h (calcBaseTick off nowMs h days)
    max 0 (nowPred - basePred)

/-! Collection-time gap filler (`scripts/fetch_youtube.js`). -/

/-- Timestamp resolution of the collection script
(`parseHistoryEntryDatetime`): textually the same ternary as
`resolveEntryTime`. -/
def parseHistoryEntryDatetime (e : HistoryEntry) : Option JSDate :=
  match e.datetime with
  | some d => some d
  | none => e.date

/-- History trimming (`trimHistory`): keep at most `maxLen` entries,
dropping the oldest first. -/
def trimHistory (h : List HistoryEntry) (maxLen : ℕ) : List HistoryEntry :=
  if h.length ≤ maxLen then h else h.drop (h.length - maxLen)

/-- Loop of `generateIntermediateTimes`: starting at `t`, step by 30 minutes
while strictly before `toMs`. -/
def genTimesAux (toMs t : ℤ) : List ℤ :=
  if t < toMs then t :: genTimesAux toMs (t + 1800000) else []
termination_by (toMs - t).toNat
decreasing_by
  rename_i ht
  omega

/-- Intermediate timestamps (`generateIntermediateTimes`) between two dates
at the 30-minute cadence, exclusive at both ends (the interval argument is
30 at both call sites).  Starting from an Invalid Date, `NaN < to` is false
and the loop produces nothing. -/
def generateIntermediateTimes (fromD : JSDate) (toMs : ℤ) : List ℤ :=
  match fromD with
  | JSDate.invalid => []
  | JSDate.valid ms => genTimesAux toMs (ms + 1800000)

/-- Views field as a JavaScript number: an absent field reads as
`undefined`, which is NaN in arithmetic. -/
def viewsNum (e : HistoryEntry) : Option ℚ := e.views.map (fun z => ((z : ℤ) : ℚ))

/-- JavaScript `arr.slice(-k)`: the last at most `k` elements. -/
def lastN {α : Type} (k : ℕ) (l : List α) : List α := l.drop (l.length - k)

/-- Summation loop of `estimateRatePerMinute` over consecutive pairs of the
chosen window, then `deltaV / deltaM` guarded by `deltaM <= 0` (false for a
NaN `deltaM`, in which case the division yields NaN). -/
def rateFromPairs (arr : List HistoryEntry) : Option ℚ :=
  let acc := (arr.zip arr.tail).foldl
    (fun (a : Option ℚ × Option ℚ) pr =>
      match parseHistoryEntryDatetime pr.1, parseHistoryEntryDatetime pr.2 with
      | some ta, some tb =>
        (jsAdd a.1 (jsSub (viewsNum pr.2) (viewsNum pr.1)),
          jsAdd a.2 (jsDiv (jsSub (dateNum tb) (dateNum ta)) (some 60000)))
      | _, _ => a)
    (some 0, some 0)
  if jsLeB acc.2 (some 0) then some 0 else jsDiv acc.1 acc.2

/-- Trailing-rate estimate (`estimateRatePerMinute`): rate in views per
minute over the last up to `lookback` real observations, falling back to
the last up to `lookback` observations of any kind. -/
def estimateRatePerMinute (history : List HistoryEntry) (lookback : ℕ) : Option ℚ :=
  if history.length < 2 then some 0
  else
    let arr := lastN lookback (history.filter (fun e => !e.predicted))
    if arr.length < 2 then
      let arr2 := lastN lookback history
      if arr2.length < 2 then some 0 else rateFromPairs arr2
    else rateFromPairs arr

/-- Synthesized views value of the failure path:
`Math.max(0, Math.round(lastViews + ratePerMin * minsFromLast))`; NaN input
gives a NaN result (stored as a null views field). -/
def estViews (lastViews : ℤ) (rate mins : Option ℚ) : Option ℤ :=
  match jsAdd (some ((lastViews : ℤ) : ℚ)) (jsMul rate mins) with
  | none => none
  | some q => some (max 0 (round q))

/-- Failure-path history update of the collection script (the fetch-error
fallback branch of the main loop): estimate the trailing rate, extrapolate
predicted points at the 30-minute cadence strictly between the last
observation and the cycle time, append a final predicted point at exactly
the cycle time, and trim.  A history with no resolvable last entry is left
unchanged (up to trimming). -/
def fallbackFillHistory (prev : List HistoryEntry) (currentMs : ℤ) : List HistoryEntry :=
  let lastTime : Option JSDate :=
    match prev.getLast? with
    | some e => parseHistoryEntryDatetime e
    | none => none
  let lastViews : ℤ :=
    match prev.getLast? with
    | some e => e.views.getD 0
    | none => 0
  let ratePerMin := estimateRatePerMinute prev 6
  match lastTime with
  | none => trimHistory prev 5000
  | some d =>
    let inter := generateIntermediateTimes d currentMs
    let mids : List HistoryEntry := inter.map (fun t =>
      { datetime := some (JSDate.valid t), date := none,
        views := estViews lastViews ratePerMin
          (jsDiv (jsSub (some ((t : ℤ) : ℚ)) (dateNum d)) (some 60000)),
        predicted := true })
    let finalE : HistoryEntry :=
      { datetime := some (JSDate.valid currentMs), date := none,
        views := estViews lastViews ratePerMin
          (jsDiv (jsSub (some ((currentMs : ℤ) : ℚ)) (dateNum d)) (some 60000)),
        predicted := true }
    trimHistory (prev ++ mids ++ [finalE]) 5000

/-! Predicates used in theorem statements. -/

/-- Point has a valid (non-NaN) time. -/
def validPt (p : Point) : Bool := p.tsMin.isSome

/-- Time value of a point with `0` standing in for NaN (used only on valid
points, where it is the unique `τ` with `tsMin = some τ`). -/
def tOf (p : Point) : ℚ := p.tsMin.getD 0

/-- Regression abscissa of a valid point relative to the anchor `ρ`. -/
noncomputable def xF (ρ : ℚ) (p : Point) : ℝ := ((tOf p - ρ : ℚ) : ℝ)

/-- Regression weight of a valid point relative to the anchor `ρ`. -/
noncomputable def wF (ρ : ℚ) (p : Point) : ℝ :=
  Real.exp (-(|((tOf p - ρ : ℚ) : ℝ)| / 180) * Real.log 2)

/-- Time order on points (meaningful on valid points). -/
def pLe (a b : Point) : Prop := tOf a ≤ tOf b

/-- Point lies on the affine line `v = a + r * t` (in particular its time is
valid). -/
def onLineB (a r : ℚ) (p : Point) : Bool :=
  match p.tsMin with
  | some τ => decide (p.v = a + r * τ)
  | none => false

/-- The cleaned sequence of a history is perfectly linear with per-minute
rate `r`: at least two points, all on one line. -/
def LinearCleaned (h : List HistoryEntry) (r : ℚ) : Prop :=
  2 ≤ (preprocessHistory h).length ∧ ∃ a, ∀ p ∈ preprocessHistory h, onLineB a r p

/-- Separation relation of cleaned sequences: both times valid and at least
1e-6 minutes apart, later one strictly later. -/
def gapRel (a b : Point) : Prop :=
  ∃ x y, a.tsMin = some x ∧ b.tsMin = some y ∧ x + 1 / 1000000 ≤ y

/-- Entry whose present timestamp string does not parse. -/
def unparsableB (e : HistoryEntry) : Bool := decide (resolveEntryTime e = some JSDate.invalid)

/-! Concrete example inputs used by counterexamples and witnesses. -/

/-- History whose single entry has a present but unparsable datetime. -/
def exC4 : List HistoryEntry := [{ datetime := some JSDate.invalid, views := some 7 }]

/-- History whose single entry has no timestamp fields at all. -/
def exC5 : List HistoryEntry := [{ views := some 5 }]

/-- Two real observations 30 minutes apart growing by 300 views. -/
def exC6 : List HistoryEntry :=
  [{ datetime := some (JSDate.valid 0), views := some 1000 },
   { datetime := some (JSDate.valid 1800000), views := some 1300 }]

/-- Two observations 1 millisecond (1/60000 minute) apart. -/
def exC7 : List HistoryEntry :=
  [{ datetime := some (JSDate.valid 0), views := some 1 },
   { datetime := some (JSDate.valid 1), views := some 2 }]

/-- A valid observation followed by one with an unparsable datetime. -/
def exC8 : List HistoryEntry :=
  [{ datetime := some (JSDate.valid 0), views := some 0 },
   { datetime := some JSDate.invalid, views := some 0 }]

/-- Single observation dated 8 days after the epoch. -/
def exC9 : List HistoryEntry := [{ datetime := some (JSDate.valid 691200000), views := some 100 }]

/-- Single observation at the epoch with 5 views. -/
def exW2 : List HistoryEntry := [{ datetime := some (JSDate.valid 0), views := some 5 }]

/-- Perfectly linear history: 300 views gained every 30 minutes. -/
def exW1 : List HistoryEntry :=
  [{ datetime := some (JSDate.valid 0), views := some 1000 },
   { datetime := some (JSDate.valid 1800000), views := some 1300 },
   { datetime := some (JSDate.valid 3600000), views := some 1600 }]

end PrskTrend

namespace PrskTrend

/-! Basic reduction lemmas for the JavaScript number model. -/

/-- NaN absorbs addition (right). -/
@[simp] theorem jsAdd_none_right {α : Type} [LinearOrderedField α] (a : Option α) :
    jsAdd a none = none := by cases a <;> rfl

/-- NaN absorbs addition (left). -/
@[simp] theorem jsAdd_none_left {α : Type} [LinearOrderedField α] (a : Option α) :
    jsAdd none a = none := by cases a <;> rfl

/-- Addition of finite values. -/
@[simp] theorem jsAdd_some_some {α : Type} [LinearOrderedField α] (a b : α) :
    jsAdd (some a) (some b) = some (a + b) := rfl

/-- NaN absorbs subtraction (right). -/
@[simp] theorem jsSub_none_right {α : Type} [LinearOrderedField α] (a : Option α) :
    jsSub a none = none := by cases a <;> rfl

/-- NaN absorbs subtraction (left). -/
@[simp] theorem jsSub_none_left {α : Type} [LinearOrderedField α] (a : Option α) :
    jsSub none a = none := by cases a <;> rfl

/-- Subtraction of finite values. -/
@[simp] theorem jsSub_some_some {α : Type} [LinearOrderedField α] (a b : α) :
    jsSub (some a) (some b) = some (a - b) := rfl

/-- NaN absorbs multiplication (right). -/
@[simp] theorem jsMul_none_right {α : Type} [LinearOrderedField α] (a : Option α) :
    jsMul a none = none := by cases a <;> rfl

/-- NaN absorbs multiplication (left). -/
@[simp] theorem jsMul_none_left {α : Type} [LinearOrderedField α] (a : Option α) :
    jsMul none a = none := by cases a <;> rfl

/-- Multiplication of finite values. -/
@[simp] theorem jsMul_some_some {α : Type} [LinearOrderedField α] (a b : α) :
    jsMul (some a) (some b) = some (a * b) := rfl

/-- NaN absorbs division (right). -/
@[simp] theorem jsDiv_none_right {α : Type} [LinearOrderedField α] (a : Option α) :
    jsDiv a none = none := by cases a <;> rfl

/-- NaN absorbs division (left). -/
@[simp] theorem jsDiv_none_left {α : Type} [LinearOrderedField α] (a : Option α) :
    jsDiv none a = none := by cases a <;> rfl

/-- Division of finite values. -/
theorem jsDiv_some_some {α : Type} [LinearOrderedField α] (a b : α) :
    jsDiv (some a) (some b) = if b = 0 then none else some (a / b) := rfl

/-- Division of finite values by a nonzero divisor. -/
@[simp] theorem jsDiv_some_some_ne {α : Type} [LinearOrderedField α] (a b : α) (hb : b ≠ 0) :
    jsDiv (some a) (some b) = some (a / b) := by simp [jsDiv, hb]

/-- NaN absorbs `Math.abs`. -/
@[simp] theorem jsAbs_none {α : Type} [LinearOrderedField α] :
    jsAbs (none : Option α) = none := rfl

/-- Absolute value of a finite value. -/
@[simp] theorem jsAbs_some {α : Type} [LinearOrderedField α] (a : α) :
    jsAbs (some a) = some |a| := rfl

/-- NaN absorbs `Math.max` (right). -/
@[simp] theorem jsMax_none_right {α : Type} [LinearOrderedField α] (a : Option α) :
    jsMax a none = none := by cases a <;> rfl

/-- NaN absorbs `Math.max` (left). -/
@[simp] theorem jsMax_none_left {α : Type} [LinearOrderedField α] (a : Option α) :
    jsMax none a = none := by cases a <;> rfl

/-- `Math.max` of finite values. -/
@[simp] theorem jsMax_some_some {α : Type} [LinearOrderedField α] (a b : α) :
    jsMax (some a) (some b) = some (max a b) := rfl

/-- Comparisons with NaN are false (left). -/
@[simp] theorem jsLtB_none_left {α : Type} [LinearOrderedField α] (a : Option α) :
    jsLtB none a = false := rfl

/-- Comparisons with NaN are false (right). -/
@[simp] theorem jsLtB_none_right {α : Type} [LinearOrderedField α] (a : Option α) :
    jsLtB a none = false := by cases a <;> rfl

/-- Comparison of finite values. -/
@[simp] theorem jsLtB_some_some {α : Type} [LinearOrderedField α] (a b : α) :
    jsLtB (some a) (some b) = decide (a < b) := rfl

/-- Non-strict comparisons with NaN are false (left). -/
@[simp] theorem jsLeB_none_left {α : Type} [LinearOrderedField α] (a : Option α) :
    jsLeB none a = false := rfl

/-- Non-strict comparisons with NaN are false (right). -/
@[simp] theorem jsLeB_none_right {α : Type} [LinearOrderedField α] (a : Option α) :
    jsLeB a none = false := by cases a <;> rfl

/-- Non-strict comparison of finite values. -/
@[simp] theorem jsLeB_some_some {α : Type} [LinearOrderedField α] (a b : α) :
    jsLeB (some a) (some b) = decide (a ≤ b) := rfl

/-- Strict `>` with NaN is false (left). -/
@[simp] theorem jsGtB_none_left {α : Type} [LinearOrderedField α] (a : Option α) :
    jsGtB none a = false := rfl

/-- Strict `>` with NaN is false (right). -/
@[simp] theorem jsGtB_none_right {α : Type} [LinearOrderedField α] (a : Option α) :
    jsGtB a none = false := by cases a <;> rfl

/-- Strict `>` of finite values. -/
@[simp] theorem jsGtB_some_some {α : Type} [LinearOrderedField α] (a b : α) :
    jsGtB (some a) (some b) = decide (b < a) := rfl

/-- `x || d` on NaN gives the default. -/
@[simp] theorem jsOrD_none {α : Type} [LinearOrderedField α] (d : α) :
    jsOrD none d = d := rfl

/-- `x || d` on a finite value. -/
theorem jsOrD_some {α : Type} [LinearOrderedField α] (v d : α) :
    jsOrD (some v) d = if v = 0 then d else v := rfl

/-- `isFinite` holds on finite values. -/
@[simp] theorem isFin_some {α : Type} (a : α) : isFin (some a) = true := rfl

/-- `isFinite` fails on NaN. -/
@[simp] theorem isFin_none {α : Type} : isFin (none : Option α) = false := rfl

/-- NaN coerces to NaN. -/
@[simp] theorem qr_none : qr none = none := rfl

/-- Finite rationals coerce to the corresponding reals. -/
@[simp] theorem qr_some (q : ℚ) : qr (some q) = some ((q : ℝ)) := rfl

/-- NaN absorbs `Math.sign`. -/
@[simp] theorem jsSign_none {α : Type} [LinearOrderedField α] :
    jsSign (none : Option α) = none := rfl

/-- C10: `floorToHalfHour` is idempotent, its output is at most the input
and less than 30 minutes below it, and the output's local seconds and
milliseconds are zero with a local minutes field of 0 or 30 — for every
timezone offset `off` (in milliseconds) and every input instant `t`. -/
theorem c10_floorToHalfHour_algebra (off t : ℤ) :
    floorToHalfHour off (floorToHalfHour off t) = floorToHalfHour off t ∧
    floorToHalfHour off t ≤ t ∧
    t - floorToHalfHour off t < 1800000 ∧
    (floorToHalfHour off t + off) % 60000 = 0 ∧
    (jsGetMinutes off (floorToHalfHour off t) = 0 ∨ jsGetMinutes off (floorToHalfHour off t) = 30) := by
  refine ⟨?_, ?_, ?_, ?_, ?_⟩ <;>
    · simp only [floorToHalfHour, jsGetMinutes]
      split_ifs <;> omega

/-- C3: `calcDeltaWithPrediction` is nonnegative for every timezone offset,
current instant, history (including ones with views reversals or broken
timestamps) and window length in days. -/
theorem c3_delta_nonneg (off nowMs : ℤ) (h : List HistoryEntry) (days : ℤ) :
    0 ≤ calcDeltaWithPrediction off nowMs h days := by
  unfold calcDeltaWithPrediction
  split
  · exact le_refl 0
  · exact le_max_left 0 _

/-- C4 counterexample: an entry with a present but unparsable datetime
string is not removed by `preprocessHistory` — a point derived from it (with
NaN time) appears in the cleaned output, contradicting the claimed silent
drop of every unresolvable timestamp. -/
theorem c4_counterexample : preprocessHistory exC4 = [⟨none, 7⟩] := by decide

/-- C5 counterexample: on a non-empty history whose last entry has no
resolvable timestamp, `predictValueAt` does not return 0 — here it returns
the entry's views value 5. -/
theorem c5_counterexample : ¬ (predictValueAt exC5 0 = 0) := by
  have : predictValueAt exC5 0 = 5 := by rfl
  omega

/-- C5 amended: for a non-empty history whose last entry's timestamp cannot
be resolved, `predictValueAt` returns that entry's `views || 0` value when
both timestamp fields are absent, and `max 0 (views || 0)` when a timestamp
string is present but unparsable — never the constant 0 claimed, and in
both cases independent of the target time. -/
theorem c5_amended (h : List HistoryEntry) (hne : h ≠ [])
    (hnr : resolveEntryTime (h.getLastD {}) = none ∨
      resolveEntryTime (h.getLastD {}) = some JSDate.invalid) (t : ℤ) :
    predictValueAt h t =
      (if resolveEntryTime (h.getLastD {}) = none
        then (h.getLastD {}).views.getD 0
        else max 0 ((h.getLastD {}).views.getD 0)) := by
  unfold predictValueAt
  rw [if_neg hne]
  rcases hnr with hr | hr
  · simp only [hr]
    simp
  · simp only [hr, dateNum, jsSub_none_right, jsDiv_none_left, qr_none, jsMul_none_right,
      jsAdd_none_right]
    conv_rhs => rw [if_neg (by simp)]
    set v : ℤ := (h.getLastD {}).views.getD 0 with hv
    by_cases hvneg : ((v : ℝ)) < 0
    · rw [if_pos hvneg]
      have hvz : v < 0 := by exact_mod_cast hvneg
      rw [round_zero]
      omega
    · rw [if_neg hvneg]
      have hvz : (0 : ℤ) ≤ v := by exact_mod_cast not_lt.mp hvneg
      rw [round_intCast]
      omega

/-- Witness for the amended C5 at a concrete input: the single-entry
history with no timestamp fields and 5 views predicts 5 at target 0. -/
theorem c5_amended_witness : predictValueAt exC5 0 = 5 := by
  have h := c5_amended exC5 (by decide) (Or.inl (by decide)) 0
  simpa using h

/-- C2: when the last entry of a non-empty history resolves to a valid
instant and carries a present nonnegative views value, predicting at
exactly that instant returns exactly that views value. -/
theorem c2_predict_anchor (h : List HistoryEntry) (v ms : ℤ) (hne : h ≠ [])
    (ht : resolveEntryTime (h.getLastD {}) = some (JSDate.valid ms))
    (hv : (h.getLastD {}).views = some v) (hv0 : 0 ≤ v) :
    predictValueAt h ms = v := by
  unfold predictValueAt
  rw [if_neg hne]
  simp only [ht, hv, dateNum, Option.getD_some, jsSub_some_some, sub_self]
  rw [jsDiv_some_some_ne _ _ (by norm_num), qr_some]
  simp only [jsMul_some_some, jsAdd_some_some]
  norm_num
  rw [if_neg (show ¬ (v < 0) by omega)]
  exact round_intCast v

/-- Witness for C2 at a concrete input: a single observation at the epoch
with 5 views predicts 5 at the epoch. -/
theorem c2_predict_anchor_witness : predictValueAt exW2 0 = 5 :=
  c2_predict_anchor exW2 5 0 (by decide) (by decide) (by decide) (by decide)

/-- C7 counterexample: two observations 1 millisecond (1/60000 ≈ 1.7e-5
minutes) apart — within the claimed ≈6e-5-minute tolerance — are both kept
by `preprocessHistory`, so the output does contain two points within that
tolerance (the code's tolerance is 1e-6 minutes). -/
theorem c7_counterexample :
    preprocessHistory exC7 = [⟨some 0, 1⟩, ⟨some ((1 : ℚ) / 60000), 2⟩] ∧
      ((1 : ℚ) / 60000 - 0 < 6 / 100000) := by
  constructor
  · norm_num [preprocessHistory, exC7, toPoint, resolveEntryTime, jsSortBy, jsInsert,
      dedupe, dedupeStep, nearB, ptLE, jsLtB, jsAbs, jsSub, List.filterMap]
    rw [abs_of_nonneg (by norm_num : (0 : ℚ) ≤ 1 / 60000)]
    norm_num
  · norm_num

/-- C9: when the half-hour-floored target tick precedes the half-hour-floored
earliest (resolvable) observation time, the delta calculator uses the
floored earliest time as its base prediction time. -/
theorem c9_base_tick_clamp (off nowMs days f : ℤ) (h : List HistoryEntry) (hne : h ≠ [])
    (hf : earliestHistoryTime h = some (JSDate.valid f))
    (hclamp : floorToHalfHour off (nowMs - days * 86400000) < floorToHalfHour off f) :
    calcBaseTick off nowMs h days = floorToHalfHour off f ∧
      calcDeltaWithPrediction off nowMs h days
        = max 0 (predictValueAt h nowMs - predictValueAt h (floorToHalfHour off f)) := by
  have hbase : calcBaseTick off nowMs h days = floorToHalfHour off f := by
    unfold calcBaseTick
    rw [hf]
    simp only [if_pos hclamp]
  refine ⟨hbase, ?_⟩
  unfold calcDeltaWithPrediction
  rw [if_neg hne, hbase]

/-- Witness for C9: a 7-day delta over a history starting 8 days after the
epoch, evaluated 10 days after the epoch (so only 2 days of data), clamps
its base tick from 3 days after the epoch up to the first observation's
half-hour tick. -/
theorem c9_base_tick_clamp_witness :
    exC9 ≠ [] ∧ earliestHistoryTime exC9 = some (JSDate.valid 691200000) ∧
      floorToHalfHour 0 (864000000 - 7 * 86400000) < floorToHalfHour 0 691200000 ∧
      calcBaseTick 0 864000000 exC9 7 = floorToHalfHour 0 691200000 :=
  ⟨by decide, by decide, by decide,
    (c9_base_tick_clamp 0 864000000 7 691200000 exC9 (by decide) (by decide) (by decide)).1⟩

/-- C6 counterexample: on the failure path with a 60-minute gap the code
appends 1 intermediate point plus the final point (2 entries in total),
whereas the claim's `floor(g/30)` intermediates plus one final point would
be 3 entries. -/
theorem c6_counterexample :
    (fallbackFillHistory exC6 5400000).length = exC6.length + 2 ∧
      exC6.length + 2 ≠ exC6.length + (⌊(60 : ℚ) / 30⌋.toNat + 1) := by
  constructor
  · have hg : generateIntermediateTimes (JSDate.valid 1800000) 5400000 = [3600000] := by
      rw [generateIntermediateTimes]
      rw [genTimesAux]
      norm_num
      rw [genTimesAux]
      norm_num
    rw [fallbackFillHistory]
    simp only [exC6, List.getLast?_cons_cons, List.getLast?_singleton, Option.getD_some]
    norm_num [parseHistoryEntryDatetime, hg, trimHistory]
  · have h2 : ⌊(60 : ℚ) / 30⌋ = 2 := by norm_num
    rw [h2]
    decide

/-! Structure of the preprocessor output: stable sort and duplicate
collapsing. -/

/-- Stable insertion permutes. -/
theorem jsInsert_perm {α : Type} (le : α → α → Bool) (a : α) (l : List α) :
    (jsInsert le a l).Perm (a :: l) := by
  induction l with
  | nil => exact List.Perm.refl _
  | cons b l ih =>
    rw [jsInsert]
    split
    · exact List.Perm.refl _
    · exact (List.Perm.cons b ih).trans (List.Perm.swap a b l)

/-- The stable sort permutes. -/
theorem jsSortBy_perm {α : Type} (le : α → α → Bool) (l : List α) :
    (jsSortBy le l).Perm l := by
  induction l with
  | nil => exact List.Perm.refl _
  | cons a l ih => exact (jsInsert_perm le a _).trans (List.Perm.cons a ih)

/-- On valid points, the sort comparator is the time order. -/
theorem ptLE_iff_of_valid {a b : Point} (ha : validPt a) (hb : validPt b) :
    ptLE a b = true ↔ pLe a b := by
  rcases ha' : a.tsMin with _ | x
  · simp [validPt, ha'] at ha
  rcases hb' : b.tsMin with _ | y
  · simp [validPt, hb'] at hb
  simp [ptLE, ha', hb', pLe, tOf]

/-- Inserting a valid point into a time-sorted list of valid points keeps
it time-sorted. -/
theorem jsInsert_pairwise {a : Point} (l : List Point) (ha : validPt a)
    (hl : ∀ p ∈ l, validPt p) (hs : l.Pairwise pLe) :
    (jsInsert ptLE a l).Pairwise pLe := by
  induction l with
  | nil => simp [jsInsert]
  | cons b l ih =>
    have hb := hl b (by simp)
    have hl' : ∀ p ∈ l, validPt p := fun p hp => hl p (by simp [hp])
    obtain ⟨hbl, hsl⟩ := List.pairwise_cons.mp hs
    rw [jsInsert]
    split
    next hab =>
      have h1 : pLe a b := (ptLE_iff_of_valid ha hb).mp hab
      refine List.Pairwise.cons ?_ hs
      intro x hx
      rcases List.mem_cons.mp hx with rfl | hx
      · exact h1
      · exact le_trans h1 (hbl x hx)
    next hab =>
      have h1 : pLe b a := by
        have h2 : ¬ pLe a b := fun hc => hab ((ptLE_iff_of_valid ha hb).mpr hc)
        exact le_of_not_le h2
      refine List.Pairwise.cons ?_ (ih hl' hsl)
      intro x hx
      rcases List.mem_cons.mp ((jsInsert_perm ptLE a l).mem_iff.mp hx) with rfl | hx
      · exact h1
      · exact hbl x hx

/-- The stable sort time-sorts lists of valid points. -/
theorem jsSortBy_pairwise (l : List Point) (hl : ∀ p ∈ l, validPt p) :
    (jsSortBy ptLE l).Pairwise pLe := by
  induction l with
  | nil => simp [jsSortBy]
  | cons a l ih =>
    have ha := hl a (by simp)
    have hl' : ∀ p ∈ l, validPt p := fun p hp => hl p (by simp [hp])
    have hsv : ∀ p ∈ jsSortBy ptLE l, validPt p :=
      fun p hp => hl' p ((jsSortBy_perm ptLE l).mem_iff.mp hp)
    exact jsInsert_pairwise _ ha hsv (ih hl')

/-- A successful near-duplicate test implies both times are valid. -/
theorem nearB_some {a p : Point} (h : nearB a p = true) :
    a.tsMin.isSome ∧ p.tsMin.isSome := by
  rcases ha : a.tsMin with _ | x <;> rcases hp : p.tsMin with _ | y <;>
    simp [nearB, ha, hp] at h ⊢

/-- Duplicate collapsing never changes the number of NaN-time points
(collapsing only happens between two valid times). -/
theorem dedupe_fold_countP : ∀ (l acc : List Point),
    (l.foldl dedupeStep acc).countP (fun q => q.tsMin.isNone)
      = acc.countP (fun q => q.tsMin.isNone) + l.countP (fun q => q.tsMin.isNone) := by
  intro l
  induction l with
  | nil => simp
  | cons p l ih =>
    intro acc
    rw [List.foldl_cons, ih]
    have hstep : (dedupeStep acc p).countP (fun q => q.tsMin.isNone)
        = acc.countP (fun q => q.tsMin.isNone)
          + (if p.tsMin.isNone then 1 else 0) := by
      rcases acc with _ | ⟨a, rest⟩
      · simp [dedupeStep, List.countP_cons]
      · rw [dedupeStep]
        split
        next hnear =>
          obtain ⟨h1, h2⟩ := nearB_some hnear
          rw [Option.isSome_iff_exists] at h1 h2
          obtain ⟨x, hx⟩ := h1
          obtain ⟨y, hy⟩ := h2
          simp [List.countP_cons, hx, hy]
        next => simp [List.countP_cons]
    rw [hstep]
    simp only [List.countP_cons]
    omega

/-- NaN-time point count is preserved by `dedupe`. -/
theorem dedupe_countP (l : List Point) :
    (dedupe l).countP (fun q => q.tsMin.isNone) = l.countP (fun q => q.tsMin.isNone) := by
  rw [dedupe, (List.reverse_perm _).countP_eq]
  simpa using dedupe_fold_countP l []

/-- Fold invariant of the duplicate collapsing: over a time-sorted list of
valid points the reversed accumulator always carries ε-separated strictly
increasing times. -/
theorem dedupe_fold_gap : ∀ (l acc : List Point),
    (∀ p ∈ l, validPt p) → (∀ p ∈ acc, validPt p) →
    l.Pairwise pLe →
    acc.reverse.Chain' gapRel →
    (∀ a ∈ acc.head?.toList, ∀ p ∈ l, tOf a ≤ tOf p) →
    (l.foldl dedupeStep acc).reverse.Chain' gapRel := by
  intro l
  induction l with
  | nil =>
    intro acc _ _ _ hacc _
    simpa using hacc
  | cons p l ih =>
    intro acc hl hacc hpair hchain hhead
    rw [List.foldl_cons]
    have hp : validPt p := hl p (by simp)
    obtain ⟨τp, hτp⟩ := Option.isSome_iff_exists.mp hp
    have hl' : ∀ q ∈ l, validPt q := fun q hq => hl q (by simp [hq])
    obtain ⟨hpl, hpair'⟩ := List.pairwise_cons.mp hpair
    refine ih (dedupeStep acc p) hl' ?_ hpair' ?_ ?_
    · intro q hq
      rcases acc with _ | ⟨a, rest⟩
      · simp only [dedupeStep] at hq
        rcases List.mem_singleton.mp hq with rfl
        exact hp
      · rw [dedupeStep] at hq
        split at hq
        · rcases List.mem_cons.mp hq with rfl | hq
          · exact hp
          · exact hacc q (by simp [hq])
        · rcases List.mem_cons.mp hq with rfl | hq
          · exact hp
          · exact hacc q hq
    · rcases acc with _ | ⟨a, rest⟩
      · simp [dedupeStep]
      · have hav : validPt a := hacc a (by simp)
        obtain ⟨τa, hτa⟩ := Option.isSome_iff_exists.mp hav
        have hap : tOf a ≤ tOf p := hhead a (by simp) p (by simp)
        rw [dedupeStep]
        split
        next hnear =>
          rw [List.reverse_cons]
          rw [List.reverse_cons] at hchain
          obtain ⟨c1, _, hlast⟩ := List.chain'_append.mp hchain
          refine List.chain'_append.mpr ⟨c1, List.chain'_singleton p, ?_⟩
          intro x hx y hy
          rcases List.mem_singleton.mp (List.mem_of_mem_head? hy) with rfl
          have hga : gapRel x a := hlast x hx a (by simp)
          obtain ⟨τx, τa', hx1, hx2, hx3⟩ := hga
          rw [hτa] at hx2
          refine ⟨τx, τp, hx1, hτp, ?_⟩
          have h4 : τa ≤ τp := by
            have := hap
            rw [tOf, tOf, hτa, hτp] at this
            simpa using this
          have h5 := Option.some.inj hx2
          rw [← h5] at hx3
          linarith
        next hnear =>
          rw [List.reverse_cons, List.reverse_cons]
          refine List.chain'_append.mpr ⟨by rw [List.reverse_cons] at hchain; exact hchain,
            List.chain'_singleton p, ?_⟩
          intro x hx y hy
          rcases List.mem_singleton.mp (List.mem_of_mem_head? hy) with rfl
          have hxa : x = a := by
            have h7 := hx
            rw [List.getLast?_concat] at h7
            exact (Option.some.inj h7).symm
          subst hxa
          refine ⟨τa, τp, hτa, hτp, ?_⟩
          have h4 : τa ≤ τp := by
            have := hap
            rw [tOf, tOf, hτa, hτp] at this
            simpa using this
          have h6 : ¬ (|τa - τp| < 1 / 1000000) := by
            intro hc
            apply hnear
            simp only [nearB, hτa, hτp, jsSub_some_some, jsAbs_some, jsLtB_some_some,
              decide_eq_true_eq]
            exact hc
          rw [abs_sub_comm, abs_of_nonneg (by linarith)] at h6
          linarith
    · intro a ha q hq
      have hhd : (dedupeStep acc p).head? = some p := by
        rcases acc with _ | ⟨b, rest⟩
        · rfl
        · rw [dedupeStep]
          split <;> rfl
      rw [hhd] at ha
      rcases List.mem_singleton.mp ha with rfl
      exact hpl q hq

/-- Output of the preprocessor, when entirely valid, has ε-separated
strictly increasing times; moreover validity of the output forces validity
of every sorted input point. -/
theorem preprocess_chain_of_valid (h : List HistoryEntry)
    (hval : ∀ p ∈ preprocessHistory h, validPt p) :
    (preprocessHistory h).Chain' gapRel := by
  have hcz : (preprocessHistory h).countP (fun q => q.tsMin.isNone) = 0 := by
    rw [List.countP_eq_zero]
    intro p hp
    have := hval p hp
    simp only [validPt] at this
    simp [Option.isNone_iff_eq_none]
    exact Option.isSome_iff_ne_none.mp this
  have hsz : (jsSortBy ptLE (h.filterMap toPoint)).countP (fun q => q.tsMin.isNone) = 0 := by
    have := dedupe_countP (jsSortBy ptLE (h.filterMap toPoint))
    rw [preprocessHistory] at hcz
    omega
  have hsv : ∀ p ∈ jsSortBy ptLE (h.filterMap toPoint), validPt p := by
    intro p hp
    have := List.countP_eq_zero.mp hsz p hp
    simp only [Option.isNone_iff_eq_none] at this
    simpa [validPt, Option.isSome_iff_ne_none] using this
  have hfv : ∀ p ∈ h.filterMap toPoint, validPt p :=
    fun p hp => hsv p ((jsSortBy_perm ptLE _).mem_iff.mpr hp)
  have hpair := jsSortBy_pairwise (h.filterMap toPoint) hfv
  rw [preprocessHistory, dedupe]
  exact dedupe_fold_gap _ [] hsv (by simp) hpair (by simp) (by simp)

/-- The separation relation is transitive. -/
theorem gapRel_trans {a b c : Point} (h1 : gapRel a b) (h2 : gapRel b c) : gapRel a c := by
  obtain ⟨x, y, hx, hy, hxy⟩ := h1
  obtain ⟨y', z, hy', hz, hyz⟩ := h2
  rw [hy] at hy'
  have h3 := Option.some.inj hy'
  rw [← h3] at hyz
  exact ⟨x, z, hx, hz, by linarith⟩

/-- C7 amended: the claimed collapsing tolerance is 1e-6 minutes (not
≈6e-5): whenever the preprocessor output consists of resolvable points,
consecutive near-duplicates within 1e-6 minutes were collapsed (the later
one winning), and the output's times are strictly increasing with every two
distinct points at least 1e-6 minutes apart. -/
theorem c7_amended (h : List HistoryEntry)
    (hval : ∀ p ∈ preprocessHistory h, validPt p) :
    (preprocessHistory h).Chain' gapRel ∧ (preprocessHistory h).Pairwise gapRel := by
  have hchain := preprocess_chain_of_valid h hval
  haveI : IsTrans Point gapRel := ⟨fun _ _ _ => gapRel_trans⟩
  exact ⟨hchain, List.chain'_iff_pairwise.mp hchain⟩

/-- Witness for the amended C7: on the 1-millisecond-apart history both
points are kept and the output is strictly increasing and ε-separated. -/
theorem c7_amended_witness :
    (preprocessHistory exC7).Chain' gapRel ∧ (preprocessHistory exC7).Pairwise gapRel := by
  refine c7_amended exC7 ?_
  intro p hp
  have hpre : preprocessHistory exC7 = [⟨some 0, 1⟩, ⟨some ((1 : ℚ) / 60000), 2⟩] := by
    norm_num [preprocessHistory, exC7, toPoint, resolveEntryTime, jsSortBy, jsInsert,
      dedupe, dedupeStep, nearB, ptLE, jsLtB, jsAbs, jsSub, List.filterMap]
    rw [abs_of_nonneg (by norm_num : (0 : ℚ) ≤ 1 / 60000)]
    norm_num
  rw [hpre] at hp
  rcases List.mem_cons.mp hp with rfl | hp
  · rfl
  · rcases List.mem_singleton.mp hp with rfl
    rfl

/-- C4 amended: entries with neither timestamp field are dropped silently
(removing them changes nothing), but every entry with a present,
unparsable timestamp string is NOT removed: it yields exactly one
invalid-time point in the preprocessor output (so such points can influence
the slope estimate). -/
theorem c4_amended (h : List HistoryEntry) :
    preprocessHistory (h.filter (fun e => (resolveEntryTime e).isSome)) = preprocessHistory h ∧
      (preprocessHistory h).countP (fun p => p.tsMin.isNone) = h.countP unparsableB := by
  constructor
  · rw [preprocessHistory, preprocessHistory]
    congr 2
    induction h with
    | nil => rfl
    | cons e h ih =>
      rcases he : resolveEntryTime e with _ | d
      · rw [List.filter_cons]
        simp only [he, Option.isSome_none, Bool.false_eq_true, if_false]
        rw [List.filterMap_cons]
        simp only [toPoint, he]
        exact ih
      · rw [List.filter_cons]
        simp only [he, Option.isSome_some, if_true]
        rw [List.filterMap_cons, List.filterMap_cons]
        rw [ih]
  · rw [preprocessHistory, dedupe_countP, (jsSortBy_perm ptLE _).countP_eq,
      List.countP_filterMap]
    apply List.countP_congr
    intro e _
    rcases he : resolveEntryTime e with _ | d
    · simp [toPoint, he, unparsableB]
    · rcases d with ms | _
      · simp [toPoint, he, unparsableB]
      · simp [toPoint, he, unparsableB]

/-! Shape of the slope estimator on histories without unparsable
timestamps. -/

/-- NaN absorbs the regression weight. -/
@[simp] theorem wlsWeight_none : wlsWeight none = none := rfl

/-- Regression weight of a finite offset. -/
@[simp] theorem wlsWeight_some (q : ℚ) :
    wlsWeight (some q) = some (Real.exp (-(|(q : ℝ)| / 180) * Real.log 2)) := rfl

/-- The defaulted last element of a non-empty list is a member. -/
theorem getLastD_mem {α : Type} (l : List α) (d : α) (h : l ≠ []) : l.getLastD d ∈ l := by
  induction l with
  | nil => exact absurd rfl h
  | cons a l ih =>
    rcases l with _ | ⟨b, m⟩
    · simp
    · rw [List.getLastD_cons]
      exact List.mem_cons_of_mem a (ih (by simp))

/-- Every point surviving a duplicate-collapsing step came from the new
point or the accumulator. -/
theorem dedupeStep_subset (acc : List Point) (p q : Point) (hq : q ∈ dedupeStep acc p) :
    q = p ∨ q ∈ acc := by
  rcases acc with _ | ⟨a, rest⟩
  · simpa [dedupeStep] using hq
  · rw [dedupeStep] at hq
    split at hq
    · rcases List.mem_cons.mp hq with rfl | hq
      · exact Or.inl rfl
      · exact Or.inr (by simp [hq])
    · rcases List.mem_cons.mp hq with rfl | hq
      · exact Or.inl rfl
      · exact Or.inr hq

/-- Duplicate collapsing only keeps input points. -/
theorem dedupe_subset : ∀ (l : List Point), ∀ q ∈ dedupe l, q ∈ l := by
  have hfold : ∀ (l acc : List Point), ∀ q ∈ l.foldl dedupeStep acc, q ∈ acc ∨ q ∈ l := by
    intro l
    induction l with
    | nil => intro acc q hq; exact Or.inl hq
    | cons p l ih =>
      intro acc q hq
      rw [List.foldl_cons] at hq
      rcases ih (dedupeStep acc p) q hq with hq | hq
      · rcases dedupeStep_subset acc p q hq with rfl | hq
        · exact Or.inr (by simp)
        · exact Or.inl hq
      · exact Or.inr (by simp [hq])
  intro l q hq
  rw [dedupe, List.mem_reverse] at hq
  rcases hfold l [] q hq with hq | hq
  · simp at hq
  · exact hq

/-- On a history with no unparsable timestamps, every preprocessed point
has a valid time. -/
theorem preprocess_valid_of_entries (h : List HistoryEntry)
    (hres : ∀ e ∈ h, resolveEntryTime e ≠ some JSDate.invalid) :
    ∀ p ∈ preprocessHistory h, validPt p := by
  intro p hp
  rw [preprocessHistory] at hp
  have hp2 : p ∈ jsSortBy ptLE (h.filterMap toPoint) := dedupe_subset _ p hp
  have hp3 : p ∈ h.filterMap toPoint := (jsSortBy_perm ptLE _).mem_iff.mp hp2
  obtain ⟨e, he, hte⟩ := List.mem_filterMap.mp hp3
  rcases hd : resolveEntryTime e with _ | d
  · rw [toPoint, hd] at hte
    exact absurd hte (by simp)
  · rcases d with ms | _
    · rw [toPoint, hd] at hte
      have := Option.some.inj hte
      rw [← this]
      rfl
    · exact absurd hd (hres e he)

/-- Explicit form of the per-segment rates over a valid, ε-separated
point sequence: every adjacent segment is kept and contributes the exact
finite rate. -/
theorem segmentRates_explicit : ∀ (pts : List Point), (∀ p ∈ pts, validPt p) →
    pts.Chain' gapRel →
    segmentRates pts = (pts.zip pts.tail).map
      (fun pr => some ((pr.2.v - pr.1.v) / (tOf pr.2 - tOf pr.1))) := by
  intro pts
  induction pts with
  | nil => intro _ _; rfl
  | cons a tail ih =>
    intro hval hchain
    rcases tail with _ | ⟨b, rest⟩
    · rfl
    · obtain ⟨hab, hchain'⟩ := List.chain'_cons.mp hchain
      obtain ⟨τa, τb, hτa, hτb, hsep⟩ := hab
      have htOa : tOf a = τa := by rw [tOf, hτa]; rfl
      have htOb : tOf b = τb := by rw [tOf, hτb]; rfl
      have hval' : ∀ p ∈ b :: rest, validPt p := fun p hp => hval p (by simp [hp])
      rw [segmentRates]
      rw [hτa, hτb]
      simp only [jsSub_some_some]
      rw [if_neg (by simp only [jsLeB_some_some, decide_eq_true_eq]; intro hc; linarith)]
      rw [jsDiv_some_some_ne _ _ (by intro hc; rw [sub_eq_zero] at hc; linarith)]
      rw [ih hval' hchain']
      simp [htOa, htOb]

/-- The median of a non-empty list of finite values is finite. -/
theorem median_some (arr : List (Option ℚ)) (hne : arr ≠ [])
    (hall : ∀ x ∈ arr, ∃ q : ℚ, x = some q) : ∃ m : ℚ, median arr = some m := by
  rw [median, if_neg hne]
  show (∃ m : ℚ, (if (jsSortBy numLE arr).length % 2 = 1
      then (jsSortBy numLE arr).getD ((jsSortBy numLE arr).length / 2) none
      else jsDiv (jsAdd ((jsSortBy numLE arr).getD ((jsSortBy numLE arr).length / 2 - 1) none)
        ((jsSortBy numLE arr).getD ((jsSortBy numLE arr).length / 2) none)) (some 2)) = some m)
  have hperm := jsSortBy_perm numLE arr
  have hlen : (jsSortBy numLE arr).length = arr.length := hperm.length_eq
  have hsall : ∀ x ∈ jsSortBy numLE arr, ∃ q : ℚ, x = some q :=
    fun x hx => hall x (hperm.mem_iff.mp hx)
  have hlen1 : 1 ≤ (jsSortBy numLE arr).length := by
    rw [hlen]
    exact List.length_pos.mpr hne
  split
  next hodd =>
    have hmlt : (jsSortBy numLE arr).length / 2 < (jsSortBy numLE arr).length :=
      Nat.div_lt_self (by omega) (by omega)
    rw [List.getD_eq_getElem _ _ hmlt]
    exact hsall _ (List.getElem_mem hmlt)
  next heven =>
    have hlen2 : 2 ≤ (jsSortBy numLE arr).length := by omega
    have hm1 : (jsSortBy numLE arr).length / 2 - 1 < (jsSortBy numLE arr).length := by omega
    have hm2 : (jsSortBy numLE arr).length / 2 < (jsSortBy numLE arr).length := by omega
    rw [List.getD_eq_getElem _ _ hm1, List.getD_eq_getElem _ _ hm2]
    obtain ⟨x, hx⟩ := hsall _ (List.getElem_mem hm1)
    obtain ⟨y, hy⟩ := hsall _ (List.getElem_mem hm2)
    rw [hx, hy, jsAdd_some_some, jsDiv_some_some_ne _ _ (by norm_num)]
    exact ⟨_, rfl⟩

/-- EMA fold over finite rates stays finite. -/
theorem ema_foldl_some (alpha : ℝ) : ∀ (rest : List (Option ℝ)) (s : ℝ),
    (∀ x ∈ rest, ∃ q : ℝ, x = some q) →
    ∃ e : ℝ, rest.foldl
      (fun s r => jsAdd (jsMul (some alpha) r) (jsMul (some (1 - alpha)) s)) (some s) = some e := by
  intro rest
  induction rest with
  | nil => intro s _; exact ⟨s, rfl⟩
  | cons r rest ih =>
    intro s hall
    obtain ⟨q, hq⟩ := hall r (by simp)
    rw [List.foldl_cons, hq, jsMul_some_some, jsMul_some_some, jsAdd_some_some]
    exact ih _ (fun x hx => hall x (by simp [hx]))

/-- The EMA of a non-empty list of finite rates is finite. -/
theorem emaOfRates_some (rates : List (Option ℝ)) (alpha : ℝ) (hne : rates ≠ [])
    (hall : ∀ x ∈ rates, ∃ q : ℝ, x = some q) : ∃ e : ℝ, emaOfRates rates alpha = some e := by
  rcases rates with _ | ⟨r0, rest⟩
  · exact absurd rfl hne
  · obtain ⟨q, hq⟩ := hall r0 (by simp)
    rw [emaOfRates, hq]
    exact ema_foldl_some alpha rest q (fun x hx => hall x (by simp [hx]))

/-- Explicit form of the weighted-sum fold over valid points. -/
theorem wsums_foldl_explicit (ρ : ℚ) : ∀ (gs : List Point), (∀ p ∈ gs, validPt p) →
    ∀ (s sx sy sxx sxy : ℝ),
    gs.foldl (wsumsStep (some ρ)) ⟨some s, some sx, some sy, some sxx, some sxy⟩
      = ⟨some (s + (gs.map (wF ρ)).sum),
         some (sx + (gs.map (fun p => wF ρ p * xF ρ p)).sum),
         some (sy + (gs.map (fun p => wF ρ p * (p.v : ℝ))).sum),
         some (sxx + (gs.map (fun p => wF ρ p * (xF ρ p * xF ρ p))).sum),
         some (sxy + (gs.map (fun p => wF ρ p * (xF ρ p * (p.v : ℝ)))).sum)⟩ := by
  intro gs
  induction gs with
  | nil => intro _ s sx sy sxx sxy; simp
  | cons p gs ih =>
    intro hval s sx sy sxx sxy
    obtain ⟨τ, hτ⟩ := Option.isSome_iff_exists.mp (hval p (by simp))
    have hx : jsSub p.tsMin (some ρ) = some (τ - ρ) := by rw [hτ, jsSub_some_some]
    have htO : tOf p = τ := by rw [tOf, hτ]; rfl
    rw [List.foldl_cons]
    rw [show wsumsStep (some ρ) ⟨some s, some sx, some sy, some sxx, some sxy⟩ p
        = ⟨some (s + wF ρ p), some (sx + wF ρ p * xF ρ p),
           some (sy + wF ρ p * (p.v : ℝ)), some (sxx + wF ρ p * (xF ρ p * xF ρ p)),
           some (sxy + wF ρ p * (xF ρ p * (p.v : ℝ)))⟩ by
      rw [wsumsStep]
      simp only [hx, qr_some, wlsWeight_some, jsMul_some_some, jsAdd_some_some]
      rw [wF, xF, htO]]
    rw [ih (fun q hq => hval q (by simp [hq]))]
    simp [add_assoc]

/-- Explicit form of the weighted sums over valid points. -/
theorem wsums_explicit (ρ : ℚ) (gs : List Point) (hval : ∀ p ∈ gs, validPt p) :
    wsums (some ρ) gs
      = ⟨some ((gs.map (wF ρ)).sum),
         some ((gs.map (fun p => wF ρ p * xF ρ p)).sum),
         some ((gs.map (fun p => wF ρ p * (p.v : ℝ))).sum),
         some ((gs.map (fun p => wF ρ p * (xF ρ p * xF ρ p))).sum),
         some ((gs.map (fun p => wF ρ p * (xF ρ p * (p.v : ℝ)))).sum)⟩ := by
  rw [wsums, wsums_foldl_explicit ρ gs hval 0 0 0 0 0]
  simp

/-- The weight sum over a non-empty point list is positive. -/
theorem wsum_pos (ρ : ℚ) (gs : List Point) (hne : gs ≠ []) :
    0 < (gs.map (wF ρ)).sum := by
  apply List.sum_pos
  · intro x hx
    obtain ⟨p, _, rfl⟩ := List.mem_map.mp hx
    exact Real.exp_pos _
  · simpa using hne

/-- The weighted least squares fit over a non-empty valid point list
produces a finite slope and intercept. -/
theorem wlsFit_some (gs : List Point) (hne : gs ≠ []) (hval : ∀ p ∈ gs, validPt p) :
    ∃ sl ic : ℝ, wlsFit gs = (some sl, some ic) := by
  obtain ⟨ρ, hρ⟩ := Option.isSome_iff_exists.mp (hval _ (getLastD_mem gs pt0 hne))
  rw [wlsFit]
  show (∃ sl ic : ℝ,
    (if jsGtB (jsAbs (jsSub (jsMul (wsums (gs.getLastD pt0).tsMin gs).S
          (wsums (gs.getLastD pt0).tsMin gs).Sxx)
        (jsMul (wsums (gs.getLastD pt0).tsMin gs).Sx (wsums (gs.getLastD pt0).tsMin gs).Sx)))
        (some ((1 : ℝ) / 1000000000))
      then ((jsDiv (jsSub (jsMul (wsums (gs.getLastD pt0).tsMin gs).S
              (wsums (gs.getLastD pt0).tsMin gs).Sxy)
            (jsMul (wsums (gs.getLastD pt0).tsMin gs).Sx (wsums (gs.getLastD pt0).tsMin gs).Sy))
          (jsSub (jsMul (wsums (gs.getLastD pt0).tsMin gs).S (wsums (gs.getLastD pt0).tsMin gs).Sxx)
            (jsMul (wsums (gs.getLastD pt0).tsMin gs).Sx (wsums (gs.getLastD pt0).tsMin gs).Sx))),
        jsDiv (jsSub (wsums (gs.getLastD pt0).tsMin gs).Sy
            (jsMul (jsDiv (jsSub (jsMul (wsums (gs.getLastD pt0).tsMin gs).S
                  (wsums (gs.getLastD pt0).tsMin gs).Sxy)
                (jsMul (wsums (gs.getLastD pt0).tsMin gs).Sx (wsums (gs.getLastD pt0).tsMin gs).Sy))
              (jsSub (jsMul (wsums (gs.getLastD pt0).tsMin gs).S
                  (wsums (gs.getLastD pt0).tsMin gs).Sxx)
                (jsMul (wsums (gs.getLastD pt0).tsMin gs).Sx
                  (wsums (gs.getLastD pt0).tsMin gs).Sx)))
              (wsums (gs.getLastD pt0).tsMin gs).Sx))
          (wsums (gs.getLastD pt0).tsMin gs).S)
      else (some ((((gs.getLastD pt0).v - (gs.headD pt0).v)
            / jsOrD (jsSub (gs.getLastD pt0).tsMin (gs.headD pt0).tsMin) 1 : ℚ) : ℝ),
        jsSub (some (((gs.getLastD pt0).v : ℝ)))
          (jsMul (some ((((gs.getLastD pt0).v - (gs.headD pt0).v)
              / jsOrD (jsSub (gs.getLastD pt0).tsMin (gs.headD pt0).tsMin) 1 : ℚ) : ℝ))
            (qr (jsSub (gs.getLastD pt0).tsMin (gs.getLastD pt0).tsMin)))))
      = (some sl, some ic))
  rw [hρ, wsums_explicit ρ gs hval]
  simp only [jsMul_some_some, jsSub_some_some, jsAbs_some]
  split
  next hgt =>
    simp only [jsGtB_some_some, decide_eq_true_eq] at hgt
    have hdne : (gs.map (wF ρ)).sum * (gs.map (fun p => wF ρ p * (xF ρ p * xF ρ p))).sum
        - (gs.map (fun p => wF ρ p * xF ρ p)).sum * (gs.map (fun p => wF ρ p * xF ρ p)).sum ≠ 0 := by
      intro hc
      rw [hc] at hgt
      simp at hgt
      linarith
    have hSne : (gs.map (wF ρ)).sum ≠ 0 := ne_of_gt (wsum_pos ρ gs hne)
    rw [jsDiv_some_some_ne _ _ hdne]
    simp only [jsMul_some_some, jsSub_some_some]
    rw [jsDiv_some_some_ne _ _ hSne]
    exact ⟨_, _, rfl⟩
  next =>
    simp only [qr_some, jsMul_some_some, jsSub_some_some]
    exact ⟨_, _, rfl⟩

/-- The residual-sum fold over valid points with finite parameters stays
finite. -/
theorem rsums_foldl_some (ρ : ℚ) (ic sl ybar : ℝ) : ∀ (gs : List Point),
    (∀ p ∈ gs, validPt p) → ∀ (a b : ℝ),
    ∃ u v : ℝ, gs.foldl (rsumsStep (some ρ) (some ic) (some sl) (some ybar)) ⟨some a, some b⟩
      = ⟨some u, some v⟩ := by
  intro gs
  induction gs with
  | nil => intro _ a b; exact ⟨a, b, rfl⟩
  | cons p gs ih =>
    intro hval a b
    obtain ⟨τ, hτ⟩ := Option.isSome_iff_exists.mp (hval p (by simp))
    have hstep : ∃ a' b' : ℝ,
        rsumsStep (some ρ) (some ic) (some sl) (some ybar) ⟨some a, some b⟩ p
          = ⟨some a', some b'⟩ := by
      rw [rsumsStep]
      simp only [hτ, jsSub_some_some, qr_some, wlsWeight_some, jsMul_some_some,
        jsAdd_some_some]
      exact ⟨_, _, rfl⟩
    obtain ⟨a', b', hstep⟩ := hstep
    rw [List.foldl_cons, hstep]
    exact ih (fun q hq => hval q (by simp [hq])) a' b'

/-- The R² computation over a non-empty valid point list with finite fit
parameters yields a finite nonnegative value. -/
theorem r2of_some (gs : List Point) (hne : gs ≠ []) (hval : ∀ p ∈ gs, validPt p)
    (sl ic : ℝ) : ∃ r : ℝ, r2of gs (some sl) (some ic) = some r ∧ 0 ≤ r := by
  obtain ⟨ρ, hρ⟩ := Option.isSome_iff_exists.mp (hval _ (getLastD_mem gs pt0 hne))
  rw [r2of]
  unfold_let
  rw [hρ, wsums_explicit ρ gs hval]
  have hSne : (gs.map (wF ρ)).sum ≠ 0 := ne_of_gt (wsum_pos ρ gs hne)
  rw [show jsDiv (some ((gs.map (fun p => wF ρ p * (p.v : ℝ))).sum)) (some ((gs.map (wF ρ)).sum))
      = some ((gs.map (fun p => wF ρ p * (p.v : ℝ))).sum / (gs.map (wF ρ)).sum) from
    jsDiv_some_some_ne _ _ hSne]
  obtain ⟨u, v, huv⟩ := rsums_foldl_some ρ ic sl
    ((gs.map (fun p => wF ρ p * (p.v : ℝ))).sum / (gs.map (wF ρ)).sum) gs hval 0 0
  rw [rsums, huv]
  split
  next hgt =>
    simp only [jsGtB_some_some, decide_eq_true_eq] at hgt
    have hvne : v ≠ 0 := by intro hc; rw [hc] at hgt; norm_num at hgt
    rw [jsDiv_some_some_ne _ _ hvne, jsSub_some_some, jsMax_some_some]
    simp only [isFin_some, Bool.not_true, Bool.false_or, jsLtB_some_some]
    rw [if_neg (by simp only [decide_eq_true_eq]; exact not_lt.mpr (le_max_left 0 _))]
    exact ⟨_, rfl, le_max_left 0 _⟩
  next =>
    simp only [isFin_some, Bool.not_true, Bool.false_or, jsLtB_some_some]
    rw [if_neg (by simp)]
    exact ⟨0, rfl, le_refl 0⟩

/-- The clamped confidence of a finite input is a finite value in [0, 1]. -/
theorem confClamp_some (x : ℝ) :
    ∃ c : ℝ, confClamp (some x) = some c ∧ 0 ≤ c ∧ c ≤ 1 := by
  rw [confClamp]
  unfold_let
  by_cases hx : x < 0
  · rw [show (if jsLtB (some x) (some (0 : ℝ)) = true then some (0 : ℝ) else some x)
        = some (0 : ℝ) from if_pos (by simp [hx])]
    rw [if_neg (by simp)]
    exact ⟨0, rfl, le_refl 0, by norm_num⟩
  · rw [show (if jsLtB (some x) (some (0 : ℝ)) = true then some (0 : ℝ) else some x)
        = some x from if_neg (by simp [hx])]
    by_cases hx1 : 1 < x
    · rw [if_pos (by simp [hx1])]
      exact ⟨1, rfl, by norm_num, le_refl 1⟩
    · rw [if_neg (by simp [hx1])]
      exact ⟨x, rfl, not_lt.mp hx, not_lt.mp hx1⟩

/-- The magnitude-cap stage maps a finite nonnegative slope to a finite
nonnegative slope. -/
theorem capStage_nonneg (u : ℝ) (hu : 0 ≤ u) (m : ℚ) :
    ∃ s : ℝ, (if jsGtB (jsAbs (some u)) (jsMax (jsMul (jsAbs (qr (some m))) (some 10)) (some 1))
      then jsMul (jsSign (some u)) (jsMax (jsMul (jsAbs (qr (some m))) (some 10)) (some 1))
      else some u) = some s ∧ 0 ≤ s := by
  rw [show jsMax (jsMul (jsAbs (qr (some m))) (some 10)) (some 1)
      = some (max (|((m : ℚ) : ℝ)| * 10) 1) by simp]
  by_cases hgt : max (|((m : ℚ) : ℝ)| * 10) 1 < |u|
  · rw [if_pos (by simp [hgt])]
    rw [abs_of_nonneg hu] at hgt
    have hupos : 0 < u := by
      have h1 : (1 : ℝ) ≤ max (|((m : ℚ) : ℝ)| * 10) 1 := le_max_right _ 1
      linarith
    simp only [jsSign, if_pos hupos, jsMul_some_some, one_mul]
    exact ⟨_, rfl, le_trans zero_le_one (le_max_right _ 1)⟩
  · rw [if_neg (by simp [hgt])]
    exact ⟨u, rfl, hu⟩

/-- The final blending stage maps finite inputs to a finite nonnegative
slope. -/
theorem slopeFinalize_nonneg (er ee r2v : ℝ) (n : ℕ) (m : ℚ) :
    ∃ s : ℝ, slopeFinalize (some er) (some ee) (some r2v) n (some m) = some s ∧ 0 ≤ s := by
  rw [slopeFinalize]
  unfold_let
  obtain ⟨c, hc, hc0, hc1⟩ := confClamp_some (r2v * (((min 6 n : ℕ) : ℝ) / 6))
  rw [jsMul_some_some, hc]
  simp only [jsSub_some_some, jsMul_some_some, jsAdd_some_some]
  by_cases hneg : c * er + (1 - c) * ee < 0
  · rw [show (if (!isFin (some (c * er + (1 - c) * ee))
          || jsLtB (some (c * er + (1 - c) * ee)) (some 0)) = true
        then jsMax (jsMax (jsMax (some (0 : ℝ)) (some ee)) (some er)) (some 0)
        else some (c * er + (1 - c) * ee)) = some (max (max (max 0 ee) er) 0) from by
      rw [if_pos (by simp [hneg])]
      simp]
    exact capStage_nonneg _ (le_max_right _ 0) m
  · rw [show (if (!isFin (some (c * er + (1 - c) * ee))
          || jsLtB (some (c * er + (1 - c) * ee)) (some 0)) = true
        then jsMax (jsMax (jsMax (some (0 : ℝ)) (some ee)) (some er)) (some 0)
        else some (c * er + (1 - c) * ee)) = some (c * er + (1 - c) * ee) from
      if_neg (by simp [hneg])]
    exact capStage_nonneg _ (not_lt.mp hneg) m

/-- The good set only contains cleaned points. -/
theorem goodSel_subset (pts : List Point) (medR : Option ℚ) (madR : ℚ) :
    ∀ q ∈ goodSel pts medR madR, q ∈ pts := by
  intro q hq
  rw [goodSel] at hq
  split at hq
  · exact hq
  · obtain ⟨i, hi, rfl⟩ := List.mem_map.mp hq
    have hilt : i < pts.length := List.mem_range.mp (List.mem_filter.mp hi).1
    rw [List.getD_eq_getElem _ _ hilt]
    exact List.getElem_mem hilt

/-- The good set retains at least two points whenever the cleaned sequence
has at least two. -/
theorem goodSel_len2 (pts : List Point) (medR : Option ℚ) (madR : ℚ)
    (h2 : 2 ≤ pts.length) : 2 ≤ (goodSel pts medR madR).length := by
  rw [goodSel]
  split
  next => exact h2
  next hlt => omega

/-- C8 amended: on every history in which no present timestamp string is
unparsable, `slope_final` is a finite nonnegative number — the negative or
non-finite blend is replaced by `max(0, slope_ema, slope_reg)` and the
magnitude cap preserves nonnegativity.  (On histories containing an
unparsable timestamp string this fails: see the counterexample, where
`slope_final` is NaN.) -/
theorem c8_amended (h : List HistoryEntry)
    (hres : ∀ e ∈ h, resolveEntryTime e ≠ some JSDate.invalid) :
    ∃ s : ℝ, (computeAdvancedSlope h).slope_final = some s ∧ 0 ≤ s := by
  rw [computeAdvancedSlope]
  unfold_let
  by_cases h2 : (preprocessHistory h).length < 2
  · rw [if_pos h2]
    exact ⟨0, rfl, le_refl 0⟩
  · rw [if_neg h2]
    by_cases hseg : segmentRates (preprocessHistory h) = []
    · rw [if_pos hseg]
      exact ⟨0, rfl, le_refl 0⟩
    · rw [if_neg hseg]
      have hval : ∀ p ∈ preprocessHistory h, validPt p := preprocess_valid_of_entries h hres
      have hchain := preprocess_chain_of_valid h hval
      have hsege := segmentRates_explicit _ hval hchain
      have hsall : ∀ x ∈ segmentRates (preprocessHistory h), ∃ q : ℚ, x = some q := by
        intro x hx
        rw [hsege] at hx
        obtain ⟨pr, _, rfl⟩ := List.mem_map.mp hx
        exact ⟨_, rfl⟩
      obtain ⟨mq, hmq⟩ := median_some _ hseg hsall
      have hgval : ∀ p ∈ goodSel (preprocessHistory h) (median (segmentRates (preprocessHistory h)))
          (jsOrD (mad (segmentRates (preprocessHistory h))) ((1 : ℚ) / 1000000)), validPt p :=
        fun p hp => hval p (goodSel_subset _ _ _ p hp)
      have hglen : 2 ≤ (goodSel (preprocessHistory h) (median (segmentRates (preprocessHistory h)))
          (jsOrD (mad (segmentRates (preprocessHistory h))) ((1 : ℚ) / 1000000))).length :=
        goodSel_len2 _ _ _ (by omega)
      have hgne : goodSel (preprocessHistory h) (median (segmentRates (preprocessHistory h)))
          (jsOrD (mad (segmentRates (preprocessHistory h))) ((1 : ℚ) / 1000000)) ≠ [] := by
        intro hc
        rw [hc] at hglen
        simp at hglen
      obtain ⟨sl, ic, hfit⟩ := wlsFit_some _ hgne hgval
      obtain ⟨r2v, hr2, hr2nn⟩ := r2of_some _ hgne hgval sl ic
      have hemall : ∀ x ∈ (segmentRates (preprocessHistory h)).map qr, ∃ q : ℝ, x = some q := by
        intro x hx
        obtain ⟨y, hy, rfl⟩ := List.mem_map.mp hx
        obtain ⟨q, hq⟩ := hsall y hy
        rw [hq]
        exact ⟨_, rfl⟩
      obtain ⟨ev, hev⟩ := emaOfRates_some ((segmentRates (preprocessHistory h)).map qr)
        ((1 : ℝ) / 2) (by simpa using hseg) hemall
      simp only [hfit]
      rw [hr2, hev, hmq]
      exact slopeFinalize_nonneg sl ev r2v _ mq

/-- C8 counterexample: on a history whose second entry has an unparsable
timestamp string, `slope_final` is NaN — in JavaScript `slope_final >= 0` is
then false, so the reported trend is not a nonnegative number for every
history. -/
theorem c8_counterexample :
    (computeAdvancedSlope exC8).slope_final = none ∧
      ¬ ∃ s : ℝ, (computeAdvancedSlope exC8).slope_final = some s ∧ 0 ≤ s := by
  have hpre : preprocessHistory exC8 = [⟨some 0, 0⟩, ⟨none, 0⟩] := by
    norm_num [preprocessHistory, exC8, toPoint, resolveEntryTime, jsSortBy, jsInsert,
      dedupe, dedupeStep, nearB, ptLE, List.filterMap]
  have hseg : segmentRates [(⟨some 0, 0⟩ : Point), ⟨none, 0⟩] = [none] := by
    simp [segmentRates]
  have hmed : median [(none : Option ℚ)] = none := by
    simp [median, jsSortBy, jsInsert]
  have hmad : mad [(none : Option ℚ)] = none := by
    simp [mad, median, jsSortBy, jsInsert]
  have hgood : goodSel [(⟨some 0, 0⟩ : Point), ⟨none, 0⟩] none ((1 : ℚ) / 1000000)
      = [⟨some 0, 0⟩, ⟨none, 0⟩] := by
    simp [goodSel, okAt, devBad, outlierRate, List.range_succ]
  have hfit : wlsFit [(⟨some 0, 0⟩ : Point), ⟨none, 0⟩] = (some 0, none) := by
    simp [wlsFit, wsums, wsumsStep]
  have hr2 : r2of [(⟨some 0, 0⟩ : Point), ⟨none, 0⟩] (some 0) none = some 0 := by
    simp [r2of, rsums, rsumsStep, wsums, wsumsStep]
  have hnone : (computeAdvancedSlope exC8).slope_final = none := by
    rw [computeAdvancedSlope]
    simp only [hpre]
    norm_num [hseg, hmed, hmad, hgood, hfit, hr2, slopeFinalize, confClamp, emaOfRates,
      jsSign]
  exact ⟨hnone, by simp [hnone]⟩

/-- Witness for the amended C8: on the two-entry all-parseable history the
final slope is a finite nonnegative number. -/
theorem c8_amended_witness :
    ∃ s : ℝ, (computeAdvancedSlope exC6).slope_final = some s ∧ 0 ≤ s :=
  c8_amended exC6 (by decide)

/-! Exactness of the estimator on perfectly linear data. -/

/-- Unfolding of the line-membership test. -/
theorem onLineB_iff (a r : ℚ) (p : Point) :
    onLineB a r p = true ↔ ∃ τ, p.tsMin = some τ ∧ p.v = a + r * τ := by
  rcases hp : p.tsMin with _ | τ <;> simp [onLineB, hp]

/-- A point on a line has a valid time. -/
theorem onLineB_valid {a r : ℚ} {p : Point} (h : onLineB a r p = true) : validPt p := by
  obtain ⟨τ, hτ, _⟩ := (onLineB_iff a r p).mp h
  simp [validPt, hτ]

/-- The defaulted head of a non-empty list is a member. -/
theorem headD_mem {α : Type} (l : List α) (d : α) (h : l ≠ []) : l.headD d ∈ l := by
  rcases l with _ | ⟨a, t⟩
  · exact absurd rfl h
  · simp

/-- Selecting entries of a list by a filtered index range is a sublist. -/
theorem filter_range_map_getD_sublist {α : Type} (l : List α) (p : ℕ → Bool) (d : α) :
    (((List.range l.length).filter p).map (fun i => l.getD i d)).Sublist l := by
  induction l using List.reverseRecOn with
  | nil => simp
  | append_singleton l a ih =>
    rw [List.length_append, List.length_singleton, List.range_succ, List.filter_append,
      List.map_append]
    have h1 : (((List.range l.length).filter p).map (fun i => (l ++ [a]).getD i d))
        = ((List.range l.length).filter p).map (fun i => l.getD i d) := by
      apply List.map_congr_left
      intro i hi
      have hilt : i < l.length := List.mem_range.mp (List.mem_filter.mp hi).1
      exact List.getD_append l [a] d i hilt
    rw [h1]
    refine List.Sublist.append ih ?_
    by_cases hp : p l.length
    · rw [List.filter_singleton, hp, cond_true, List.map_singleton]
      have hlt : l.length < (l ++ [a]).length := by simp
      rw [List.getD_eq_getElem _ _ hlt, List.getElem_concat_length l a l.length rfl hlt]
    · rw [Bool.not_eq_true] at hp
      rw [List.filter_singleton, hp, cond_false, List.map_nil]
      exact List.nil_sublist [a]

/-- The good set is a sublist of the cleaned sequence. -/
theorem goodSel_sublist (pts : List Point) (medR : Option ℚ) (madR : ℚ) :
    (goodSel pts medR madR).Sublist pts := by
  rw [goodSel]
  split
  · exact List.Sublist.refl pts
  · exact filter_range_map_getD_sublist pts _ pt0

/-- Over a perfectly linear, ε-separated point sequence every segment rate
is exactly the line's rate. -/
theorem segmentRates_linear : ∀ (pts : List Point) (A r : ℚ),
    (∀ p ∈ pts, onLineB A r p = true) → pts.Chain' gapRel →
    ∀ x ∈ segmentRates pts, x = some r := by
  intro pts
  induction pts with
  | nil => intro A r _ _ x hx; simp [segmentRates] at hx
  | cons a tail ih =>
    intro A r hline hchain x hx
    rcases tail with _ | ⟨b, rest⟩
    · simp [segmentRates] at hx
    · obtain ⟨hab, hchain'⟩ := List.chain'_cons.mp hchain
      obtain ⟨τa, τb, hτa, hτb, hsep⟩ := hab
      obtain ⟨τa', hτa', hva⟩ := (onLineB_iff A r a).mp (hline a (by simp))
      obtain ⟨τb', hτb', hvb⟩ := (onLineB_iff A r b).mp (hline b (by simp))
      rw [hτa] at hτa'
      rw [hτb] at hτb'
      rw [← Option.some.inj hτa'] at hva
      rw [← Option.some.inj hτb'] at hvb
      rw [segmentRates, hτa, hτb, jsSub_some_some] at hx
      rw [if_neg (by simp only [jsLeB_some_some, decide_eq_true_eq]; intro hc; linarith)] at hx
      rcases List.mem_cons.mp hx with rfl | hx
      · have hdne : τb - τa ≠ 0 := by intro hc; rw [sub_eq_zero] at hc; linarith
        rw [jsSub_some_some, jsDiv_some_some_ne _ _ hdne]
        rw [hva, hvb]
        congr 1
        rw [show A + r * τb - (A + r * τa) = r * (τb - τa) by ring]
        exact mul_div_cancel_right₀ r hdne
      · exact ih A r (fun p hp => hline p (by simp [hp])) hchain' x hx

/-- The median of a non-empty constant list is that constant. -/
theorem median_const (arr : List (Option ℚ)) (c : ℚ) (hne : arr ≠ [])
    (hall : ∀ x ∈ arr, x = some c) : median arr = some c := by
  rw [median, if_neg hne]
  show (if (jsSortBy numLE arr).length % 2 = 1
      then (jsSortBy numLE arr).getD ((jsSortBy numLE arr).length / 2) none
      else jsDiv (jsAdd ((jsSortBy numLE arr).getD ((jsSortBy numLE arr).length / 2 - 1) none)
        ((jsSortBy numLE arr).getD ((jsSortBy numLE arr).length / 2) none)) (some 2)) = some c
  have hperm := jsSortBy_perm numLE arr
  have hlen : (jsSortBy numLE arr).length = arr.length := hperm.length_eq
  have hsall : ∀ x ∈ jsSortBy numLE arr, x = some c :=
    fun x hx => hall x (hperm.mem_iff.mp hx)
  have hlen1 : 1 ≤ (jsSortBy numLE arr).length := by
    rw [hlen]
    exact List.length_pos.mpr hne
  split
  next hodd =>
    have hmlt : (jsSortBy numLE arr).length / 2 < (jsSortBy numLE arr).length :=
      Nat.div_lt_self (by omega) (by omega)
    rw [List.getD_eq_getElem _ _ hmlt]
    exact hsall _ (List.getElem_mem hmlt)
  next heven =>
    have hlen2 : 2 ≤ (jsSortBy numLE arr).length := by omega
    have hm1 : (jsSortBy numLE arr).length / 2 - 1 < (jsSortBy numLE arr).length := by omega
    have hm2 : (jsSortBy numLE arr).length / 2 < (jsSortBy numLE arr).length := by omega
    rw [List.getD_eq_getElem _ _ hm1, List.getD_eq_getElem _ _ hm2]
    rw [hsall _ (List.getElem_mem hm1), hsall _ (List.getElem_mem hm2)]
    rw [jsAdd_some_some, jsDiv_some_some_ne _ _ (by norm_num)]
    congr 1
    ring

/-- The MAD of a non-empty constant list is 0. -/
theorem mad_const (arr : List (Option ℚ)) (c : ℚ) (hne : arr ≠ [])
    (hall : ∀ x ∈ arr, x = some c) : mad arr = some 0 := by
  rw [mad, if_neg hne, median_const arr c hne hall]
  apply median_const
  · simpa using hne
  · intro x hx
    obtain ⟨y, hy, rfl⟩ := List.mem_map.mp hx
    rw [hall y hy, jsSub_some_some, sub_self, jsAbs_some, abs_zero]

/-- EMA fold over a constant rate list keeps the constant. -/
theorem ema_foldl_const (alpha rr : ℝ) : ∀ (rest : List (Option ℝ)),
    (∀ x ∈ rest, x = some rr) →
    rest.foldl (fun s r => jsAdd (jsMul (some alpha) r) (jsMul (some (1 - alpha)) s)) (some rr)
      = some rr := by
  intro rest
  induction rest with
  | nil => intro _; rfl
  | cons r rest ih =>
    intro hall
    rw [List.foldl_cons, hall r (by simp), jsMul_some_some, jsMul_some_some, jsAdd_some_some]
    rw [show alpha * rr + (1 - alpha) * rr = rr by ring]
    exact ih (fun x hx => hall x (by simp [hx]))

/-- The EMA of a non-empty constant rate list is that constant. -/
theorem emaOfRates_const (rates : List (Option ℝ)) (alpha rr : ℝ) (hne : rates ≠ [])
    (hall : ∀ x ∈ rates, x = some rr) : emaOfRates rates alpha = some rr := by
  rcases rates with _ | ⟨r0, rest⟩
  · exact absurd rfl hne
  · rw [emaOfRates, hall r0 (by simp)]
    exact ema_foldl_const alpha rr rest (fun x hx => hall x (by simp [hx]))

/-- The weighted least squares fit over a perfectly linear good set returns
the line's exact rate (both in the closed-form branch, where collinearity
makes the normal equations exact for any weights, and in the near-singular
two-point fallback). -/
theorem wlsFit_linear (gs : List Point) (A r : ℚ) (hlen : 2 ≤ gs.length)
    (hline : ∀ p ∈ gs, onLineB A r p = true) (hpair : gs.Pairwise gapRel) :
    ∃ ic : ℝ, wlsFit gs = (some ((r : ℚ) : ℝ), some ic) := by
  have hval : ∀ p ∈ gs, validPt p := fun p hp => onLineB_valid (hline p hp)
  have hne : gs ≠ [] := by intro hc; rw [hc] at hlen; simp at hlen
  obtain ⟨ρ, hρ⟩ := Option.isSome_iff_exists.mp (hval _ (getLastD_mem gs pt0 hne))
  have hgap : gapRel (gs.headD pt0) (gs.getLastD pt0) := by
    rcases gs with _ | ⟨p0, rest⟩
    · exact absurd rfl hne
    · have hrne : rest ≠ [] := by
        intro hc
        rw [hc] at hlen
        simp at hlen
      have hlmem : (p0 :: rest).getLastD pt0 ∈ rest := by
        rw [List.getLastD_cons]
        rcases rest with _ | ⟨q, m⟩
        · exact absurd rfl hrne
        · exact getLastD_mem _ _ (by simp)
      exact (List.pairwise_cons.mp hpair).1 _ hlmem
  obtain ⟨σ, ρ', hσ, hρ'2, hsep⟩ := hgap
  rw [hρ] at hρ'2
  rw [← Option.some.inj hρ'2] at hsep
  -- line values at the anchor and at the head
  obtain ⟨ρ'', hρ'', hvlast⟩ := (onLineB_iff A r _).mp (hline _ (getLastD_mem gs pt0 hne))
  rw [hρ] at hρ''
  rw [← Option.some.inj hρ''] at hvlast
  obtain ⟨σ', hσ', hvhead⟩ := (onLineB_iff A r _).mp (hline _ (headD_mem gs pt0 hne))
  rw [hσ] at hσ'
  rw [← Option.some.inj hσ'] at hvhead
  rw [wlsFit]
  unfold_let
  rw [hρ, hσ, wsums_explicit ρ gs hval]
  have hC : ∀ p ∈ gs, wF ρ p * (p.v : ℝ)
      = ((A + r * ρ : ℚ) : ℝ) * wF ρ p + ((r : ℚ) : ℝ) * (wF ρ p * xF ρ p) := by
    intro p hp
    obtain ⟨τ, hτ, hvp⟩ := (onLineB_iff A r p).mp (hline p hp)
    have htO : tOf p = τ := by rw [tOf, hτ]; rfl
    rw [hvp, xF, htO]
    push_cast
    ring
  have hCx : ∀ p ∈ gs, wF ρ p * (xF ρ p * (p.v : ℝ))
      = ((A + r * ρ : ℚ) : ℝ) * (wF ρ p * xF ρ p)
        + ((r : ℚ) : ℝ) * (wF ρ p * (xF ρ p * xF ρ p)) := by
    intro p hp
    obtain ⟨τ, hτ, hvp⟩ := (onLineB_iff A r p).mp (hline p hp)
    have htO : tOf p = τ := by rw [tOf, hτ]; rfl
    rw [hvp, xF, htO]
    push_cast
    ring
  have hSy : (gs.map (fun p => wF ρ p * (p.v : ℝ))).sum
      = ((A + r * ρ : ℚ) : ℝ) * (gs.map (wF ρ)).sum
        + ((r : ℚ) : ℝ) * (gs.map (fun p => wF ρ p * xF ρ p)).sum := by
    rw [List.map_congr_left hC, ← List.sum_map_mul_left, ← List.sum_map_mul_left,
      ← List.sum_map_add]
  have hSxy : (gs.map (fun p => wF ρ p * (xF ρ p * (p.v : ℝ)))).sum
      = ((A + r * ρ : ℚ) : ℝ) * (gs.map (fun p => wF ρ p * xF ρ p)).sum
        + ((r : ℚ) : ℝ) * (gs.map (fun p => wF ρ p * (xF ρ p * xF ρ p))).sum := by
    rw [List.map_congr_left hCx, ← List.sum_map_mul_left, ← List.sum_map_mul_left,
      ← List.sum_map_add]
  simp only [jsMul_some_some, jsSub_some_some, jsAbs_some]
  split
  next hgt =>
    simp only [jsGtB_some_some, decide_eq_true_eq] at hgt
    have hdne : (gs.map (wF ρ)).sum * (gs.map (fun p => wF ρ p * (xF ρ p * xF ρ p))).sum
        - (gs.map (fun p => wF ρ p * xF ρ p)).sum * (gs.map (fun p => wF ρ p * xF ρ p)).sum
        ≠ 0 := by
      intro hc
      rw [hc] at hgt
      simp at hgt
      linarith
    have hSne : (gs.map (wF ρ)).sum ≠ 0 := ne_of_gt (wsum_pos ρ gs hne)
    rw [jsDiv_some_some_ne _ _ hdne]
    have hslv : ((gs.map (wF ρ)).sum * (gs.map (fun p => wF ρ p * (xF ρ p * (p.v : ℝ)))).sum
        - (gs.map (fun p => wF ρ p * xF ρ p)).sum * (gs.map (fun p => wF ρ p * (p.v : ℝ))).sum)
        / ((gs.map (wF ρ)).sum * (gs.map (fun p => wF ρ p * (xF ρ p * xF ρ p))).sum
          - (gs.map (fun p => wF ρ p * xF ρ p)).sum * (gs.map (fun p => wF ρ p * xF ρ p)).sum)
        = ((r : ℚ) : ℝ) := by
      rw [hSy, hSxy]
      rw [show (gs.map (wF ρ)).sum
          * (((A + r * ρ : ℚ) : ℝ) * (gs.map (fun p => wF ρ p * xF ρ p)).sum
            + ((r : ℚ) : ℝ) * (gs.map (fun p => wF ρ p * (xF ρ p * xF ρ p))).sum)
          - (gs.map (fun p => wF ρ p * xF ρ p)).sum
          * (((A + r * ρ : ℚ) : ℝ) * (gs.map (wF ρ)).sum
            + ((r : ℚ) : ℝ) * (gs.map (fun p => wF ρ p * xF ρ p)).sum)
          = ((r : ℚ) : ℝ) * ((gs.map (wF ρ)).sum
              * (gs.map (fun p => wF ρ p * (xF ρ p * xF ρ p))).sum
            - (gs.map (fun p => wF ρ p * xF ρ p)).sum
              * (gs.map (fun p => wF ρ p * xF ρ p)).sum) by ring]
      exact mul_div_cancel_right₀ _ hdne
    rw [hslv]
    simp only [jsMul_some_some, jsSub_some_some]
    rw [jsDiv_some_some_ne _ _ hSne]
    exact ⟨_, rfl⟩
  next =>
    have hdtne : ρ - σ ≠ 0 := by
      intro hc
      have : (1 : ℚ) / 1000000 ≤ 0 := by linarith
      norm_num at this
    have hratev : ((gs.getLastD pt0).v - (gs.headD pt0).v) / jsOrD (some (ρ - σ)) 1 = r := by
      rw [jsOrD_some, if_neg hdtne, hvlast, hvhead]
      field_simp
      ring
    rw [hratev]
    simp only [qr_some, jsMul_some_some, jsSub_some_some]
    exact ⟨_, rfl⟩

/-- `x || 0` on a finite value is the value. -/
theorem jsOrD_zero {α : Type} [LinearOrderedField α] (x : α) : jsOrD (some x) 0 = x := by
  rw [jsOrD_some]
  split
  next hx => rw [hx]
  next => rfl

/-- The final blending stage is the identity on an exact nonnegative rate
fed in as regression slope, EMA slope and median rate. -/
theorem slopeFinalize_linear (rr r2v : ℝ) (n : ℕ) (m : ℚ) (hrr : 0 ≤ rr)
    (hm : ((m : ℚ) : ℝ) = rr) :
    slopeFinalize (some rr) (some rr) (some r2v) n (some m) = some rr := by
  rw [slopeFinalize]
  unfold_let
  obtain ⟨c, hc, hc0, hc1⟩ := confClamp_some (r2v * (((min 6 n : ℕ) : ℝ) / 6))
  rw [jsMul_some_some, hc]
  simp only [jsSub_some_some, jsMul_some_some, jsAdd_some_some]
  rw [show c * rr + (1 - c) * rr = rr by ring]
  rw [show (if (!isFin (some rr) || jsLtB (some rr) (some 0)) = true
      then jsMax (jsMax (jsMax (some (0 : ℝ)) (some rr)) (some rr)) (some 0) else some rr)
      = some rr from if_neg (by simp [not_lt.mpr hrr])]
  rw [show jsMax (jsMul (jsAbs (qr (some m))) (some 10)) (some 1)
      = some (max (|((m : ℚ) : ℝ)| * 10) 1) by simp]
  rw [if_neg ?hcond]
  case hcond =>
    simp only [jsAbs_some, jsGtB_some_some, decide_eq_true_eq, not_lt]
    rw [abs_of_nonneg hrr, hm, abs_of_nonneg hrr]
    have h10 : rr ≤ rr * 10 := by linarith
    exact le_trans h10 (le_max_left _ 1)

/-- C1: on a history whose cleaned sequence is perfectly linear (≥ 2
points, all on one line of nonnegative per-minute rate `r`),
`computeAdvancedSlope` returns `slope_final` exactly `r`, and
`predictValueAt` at any target not before the (valid, nonnegative-views)
last observation equals the rounded linear extrapolation
`lastViews + r * deltaMinutes`. -/
theorem c1_linear_exact (h : List HistoryEntry) (r : ℚ) (v T target : ℤ)
    (hlin : LinearCleaned h r) (hr : 0 ≤ r)
    (hlast : resolveEntryTime (h.getLastD {}) = some (JSDate.valid T))
    (hv : (h.getLastD {}).views = some v) (hv0 : 0 ≤ v) (htarget : T ≤ target) :
    (computeAdvancedSlope h).slope_final = some ((r : ℚ) : ℝ) ∧
      predictValueAt h target
        = round ((v : ℝ) + ((r : ℚ) : ℝ) * ((((target - T : ℤ) : ℤ) : ℝ) / 60000)) := by
  obtain ⟨hlen2, A, hline⟩ := hlin
  have hval : ∀ p ∈ preprocessHistory h, validPt p :=
    fun p hp => onLineB_valid (hline p hp)
  have hchain := preprocess_chain_of_valid h hval
  haveI : IsTrans Point gapRel := ⟨fun _ _ _ => gapRel_trans⟩
  have hpair : (preprocessHistory h).Pairwise gapRel := List.chain'_iff_pairwise.mp hchain
  have hsege := segmentRates_explicit _ hval hchain
  have hsegne : segmentRates (preprocessHistory h) ≠ [] := by
    rw [hsege]
    intro hc
    have hlc := congrArg List.length hc
    rw [List.length_map, List.length_zip, List.length_tail] at hlc
    simp only [List.length_nil] at hlc
    omega
  have hsr : ∀ x ∈ segmentRates (preprocessHistory h), x = some r :=
    segmentRates_linear _ A r hline hchain
  have hmedr : median (segmentRates (preprocessHistory h)) = some r :=
    median_const _ r hsegne hsr
  have hmadr : mad (segmentRates (preprocessHistory h)) = some 0 :=
    mad_const _ r hsegne hsr
  have hsub := goodSel_sublist (preprocessHistory h)
    (median (segmentRates (preprocessHistory h)))
    (jsOrD (mad (segmentRates (preprocessHistory h))) ((1 : ℚ) / 1000000))
  have hgline : ∀ p ∈ goodSel (preprocessHistory h)
      (median (segmentRates (preprocessHistory h)))
      (jsOrD (mad (segmentRates (preprocessHistory h))) ((1 : ℚ) / 1000000)),
      onLineB A r p = true :=
    fun p hp => hline p (hsub.subset hp)
  have hgpair := hpair.sublist hsub
  have hglen2 := goodSel_len2 (preprocessHistory h)
    (median (segmentRates (preprocessHistory h)))
    (jsOrD (mad (segmentRates (preprocessHistory h))) ((1 : ℚ) / 1000000)) hlen2
  have hgne : goodSel (preprocessHistory h) (median (segmentRates (preprocessHistory h)))
      (jsOrD (mad (segmentRates (preprocessHistory h))) ((1 : ℚ) / 1000000)) ≠ [] := by
    intro hc
    rw [hc] at hglen2
    simp at hglen2
  have hgval : ∀ p ∈ goodSel (preprocessHistory h)
      (median (segmentRates (preprocessHistory h)))
      (jsOrD (mad (segmentRates (preprocessHistory h))) ((1 : ℚ) / 1000000)), validPt p :=
    fun p hp => onLineB_valid (hgline p hp)
  obtain ⟨ic, hfit⟩ := wlsFit_linear _ A r hglen2 hgline hgpair
  obtain ⟨r2v, hr2, _⟩ := r2of_some _ hgne hgval ((r : ℚ) : ℝ) ic
  have hemac : emaOfRates ((segmentRates (preprocessHistory h)).map qr) ((1 : ℝ) / 2)
      = some ((r : ℚ) : ℝ) := by
    apply emaOfRates_const
    · simpa using hsegne
    · intro x hx
      obtain ⟨y, hy, rfl⟩ := List.mem_map.mp hx
      rw [hsr y hy, qr_some]
  have hslope : (computeAdvancedSlope h).slope_final = some ((r : ℚ) : ℝ) := by
    rw [computeAdvancedSlope]
    unfold_let
    rw [if_neg (by omega), if_neg hsegne]
    simp only [hfit]
    rw [hr2, hemac, hmedr]
    exact slopeFinalize_linear _ r2v _ r (by exact_mod_cast hr) rfl
  refine ⟨hslope, ?_⟩
  have hne : h ≠ [] := by
    intro hc
    rw [hc] at hv
    simp at hv
  rw [predictValueAt, if_neg hne]
  simp only [hlast, hv, dateNum, Option.getD_some, jsSub_some_some]
  rw [jsDiv_some_some_ne _ _ (by norm_num : (60000 : ℚ) ≠ 0), qr_some]
  rw [hslope, jsOrD_zero]
  simp only [jsMul_some_some, jsAdd_some_some]
  have hq : ((((target : ℤ) : ℚ) - ((T : ℤ) : ℚ)) / 60000 : ℚ)
      = (((target - T : ℤ) : ℚ) / 60000 : ℚ) := by push_cast; ring
  have hnn : ¬ ((v : ℝ) + ((r : ℚ) : ℝ) * ((((target : ℤ) : ℚ) - ((T : ℤ) : ℚ)) / 60000 : ℚ) < 0) := by
    push_cast
    have h1 : (0 : ℝ) ≤ ((target : ℝ) - (T : ℝ)) / 60000 := by
      apply div_nonneg _ (by norm_num)
      have : (T : ℝ) ≤ (target : ℝ) := by exact_mod_cast htarget
      linarith
    have h2 : (0 : ℝ) ≤ ((r : ℚ) : ℝ) := by exact_mod_cast hr
    have h3 : (0 : ℝ) ≤ (v : ℝ) := by exact_mod_cast hv0
    nlinarith
  rw [if_neg hnn]
  congr 1
  push_cast
  ring

/-- Witness for C1 at a concrete input: the two-observation history gaining
300 views per 30 minutes is perfectly linear with rate 10/minute, and
predicting 30 minutes past the last observation extrapolates linearly. -/
theorem c1_linear_exact_witness :
    LinearCleaned exC6 10 ∧
      predictValueAt exC6 3600000
        = round ((1300 : ℝ) + ((10 : ℚ) : ℝ) * ((((3600000 - 1800000 : ℤ) : ℤ) : ℝ) / 60000)) := by
  have hpre : preprocessHistory exC6 = [⟨some 0, 1000⟩, ⟨some 30, 1300⟩] := by
    norm_num [preprocessHistory, exC6, toPoint, resolveEntryTime, jsSortBy, jsInsert,
      dedupe, dedupeStep, nearB, ptLE, List.filterMap]
  have hlin : LinearCleaned exC6 10 := by
    refine ⟨by rw [hpre]; norm_num, 1000, ?_⟩
    intro p hp
    rw [hpre] at hp
    rcases List.mem_cons.mp hp with rfl | hp
    · rw [onLineB]
      norm_num
    · rcases List.mem_singleton.mp hp with rfl
      rw [onLineB]
      norm_num
  exact ⟨hlin,
    (c1_linear_exact exC6 10 1300 1800000 3600000 hlin (by norm_num) (by decide) (by decide)
      (by decide) (by decide)).2⟩

/-! Shape of the gap filler's failure path. -/

/-- Explicit form of the 30-minute stepping loop. -/
theorem genTimesAux_eq (toMs t : ℤ) : genTimesAux toMs t
    = (List.range ((toMs - t - 1) / 1800000 + 1).toNat).map
        (fun (j : ℕ) => t + 1800000 * (j : ℤ)) := by
  generalize hn : (toMs - t).toNat = n
  induction n using Nat.strong_induction_on generalizing t with
  | _ n ih =>
    rw [genTimesAux]
    split
    next hlt =>
      have hrec := ih (toMs - (t + 1800000)).toNat (by omega) (t + 1800000) rfl
      rw [hrec]
      have hcnt : ((toMs - t - 1) / 1800000 + 1).toNat
          = ((toMs - (t + 1800000) - 1) / 1800000 + 1).toNat + 1 := by omega
      rw [hcnt, List.range_succ_eq_map, List.map_cons, List.map_map]
      congr 1
      · simp
      · apply List.map_congr_left
        intro j _
        simp only [Function.comp_apply]
        push_cast
        ring
    next hnlt =>
      have hz : ((toMs - t - 1) / 1800000 + 1).toNat = 0 := by omega
      rw [hz]
      rfl

/-- Explicit form of the intermediate timestamps from a valid start. -/
theorem generateIntermediateTimes_eq (L C : ℤ) :
    generateIntermediateTimes (JSDate.valid L) C
      = (List.range (((C - L - 1) / 1800000)).toNat).map
          (fun (j : ℕ) => L + 1800000 * ((j : ℤ) + 1)) := by
  rw [generateIntermediateTimes, genTimesAux_eq]
  have hc : ((C - (L + 1800000) - 1) / 1800000 + 1).toNat = ((C - L - 1) / 1800000).toNat := by
    omega
  rw [hc]
  apply List.map_congr_left
  intro j _
  ring

/-- The synthesized views of an intermediate step 30(j+1) minutes past the
last observation. -/
theorem estViews_step (v : ℤ) (r : ℚ) (L : ℤ) (j : ℕ) :
    estViews v (some r) (jsDiv (jsSub (some (((L + 1800000 * ((j : ℤ) + 1) : ℤ) : ℚ)))
      (dateNum (JSDate.valid L))) (some 60000))
      = some (max 0 (round ((v : ℚ) + r * (30 * ((j : ℚ) + 1))))) := by
  rw [dateNum, jsSub_some_some,
    show (((L + 1800000 * ((j : ℤ) + 1) : ℤ) : ℚ)) - ((L : ℤ) : ℚ)
      = 1800000 * ((j : ℚ) + 1) by push_cast; ring,
    jsDiv_some_some_ne _ _ (by norm_num : (60000 : ℚ) ≠ 0),
    show (1800000 * ((j : ℚ) + 1) / 60000 : ℚ) = 30 * ((j : ℚ) + 1) by ring,
    estViews, jsMul_some_some, jsAdd_some_some]

/-- The synthesized views of the final point at the cycle time. -/
theorem estViews_final (v : ℤ) (r : ℚ) (L C : ℤ) :
    estViews v (some r) (jsDiv (jsSub (some ((C : ℤ) : ℚ)) (dateNum (JSDate.valid L)))
      (some 60000))
      = some (max 0 (round ((v : ℚ) + r * (((C - L : ℤ) : ℚ) / 60000)))) := by
  rw [dateNum, jsSub_some_some,
    show ((C : ℤ) : ℚ) - ((L : ℤ) : ℚ) = ((C - L : ℤ) : ℚ) by push_cast; ring,
    jsDiv_some_some_ne _ _ (by norm_num : (60000 : ℚ) ≠ 0),
    estViews, jsMul_some_some, jsAdd_some_some]

/-- C6 amended: on the failure path with a resolvable last observation at
`L`, a trailing rate `r` and a positive gap to the cycle time `C`, the code
appends `ceil(g/30) - 1` synthetic intermediate points (where `g` is the
gap in minutes) — not `floor(g/30)` — spaced 30 minutes apart with views
`max(0, round(lastViews + r * minutes))`, plus one final predicted point at
exactly `C`; every synthesized views value is nonnegative. -/
theorem c6_amended (prev : List HistoryEntry) (e : HistoryEntry) (C L : ℤ) (r : ℚ)
    (hlast : prev.getLast? = some e)
    (ht : parseHistoryEntryDatetime e = some (JSDate.valid L))
    (hrate : estimateRatePerMinute prev 6 = some r)
    (hgap : L < C)
    (hlen : prev.length + ((C - L - 1) / 1800000).toNat + 1 ≤ 5000) :
    fallbackFillHistory prev C
      = prev
        ++ (List.range (((C - L - 1) / 1800000).toNat)).map (fun (j : ℕ) =>
            { datetime := some (JSDate.valid (L + 1800000 * ((j : ℤ) + 1))), date := none,
              views := some (max 0 (round (((e.views.getD 0 : ℤ) : ℚ) + r * (30 * ((j : ℚ) + 1))))),
              predicted := true })
        ++ [{ datetime := some (JSDate.valid C), date := none,
              views := some (max 0 (round (((e.views.getD 0 : ℤ) : ℚ) + r * (((C - L : ℤ) : ℚ) / 60000)))),
              predicted := true }]
      ∧ ((((C - L - 1) / 1800000).toNat : ℤ) = ⌈((C - L : ℤ) : ℚ) / 30 / 60000⌉ - 1)
      ∧ ∀ e' ∈ (fallbackFillHistory prev C).drop prev.length,
          e'.predicted = true ∧ ∃ z : ℤ, e'.views = some z ∧ 0 ≤ z := by
  have hmain : fallbackFillHistory prev C
      = prev
        ++ (List.range (((C - L - 1) / 1800000).toNat)).map (fun (j : ℕ) =>
            { datetime := some (JSDate.valid (L + 1800000 * ((j : ℤ) + 1))), date := none,
              views := some (max 0 (round (((e.views.getD 0 : ℤ) : ℚ) + r * (30 * ((j : ℚ) + 1))))),
              predicted := true })
        ++ [{ datetime := some (JSDate.valid C), date := none,
              views := some (max 0 (round (((e.views.getD 0 : ℤ) : ℚ) + r * (((C - L : ℤ) : ℚ) / 60000)))),
              predicted := true }] := by
    simp only [fallbackFillHistory, hlast, ht, hrate, generateIntermediateTimes_eq,
      List.map_map, Function.comp_apply, estViews_step, estViews_final]
    rw [trimHistory, if_pos ?hfits]
    case hfits =>
      rw [List.length_append, List.length_append, List.length_map, List.length_range,
        List.length_singleton]
      omega
    congr 1
    congr 1
    apply List.map_congr_left
    intro j _
    simp only [Function.comp_apply]
    rw [show ((L + 1800000 * ((j : ℤ) + 1) - L : ℤ) : ℚ) / 60000 = 30 * ((j : ℚ) + 1) by
      push_cast; ring]
  refine ⟨hmain, ?_, ?_⟩
  · have hdiv : ((C - L : ℤ) : ℚ) / 30 / 60000 = ((C - L : ℤ) : ℚ) / ((1800000 : ℕ) : ℚ) := by
      push_cast
      ring
    rw [hdiv]
    rw [show (⌈((C - L : ℤ) : ℚ) / ((1800000 : ℕ) : ℚ)⌉ : ℤ)
        = -⌊((-(C - L) : ℤ) : ℚ) / ((1800000 : ℕ) : ℚ)⌋ by
      rw [show ((-(C - L) : ℤ) : ℚ) / ((1800000 : ℕ) : ℚ)
          = -(((C - L : ℤ) : ℚ) / ((1800000 : ℕ) : ℚ)) by push_cast; ring]
      rfl]
    rw [Rat.floor_intCast_div_natCast]
    omega
  · intro e' he'
    rw [hmain, List.append_assoc, List.drop_left] at he'
    rcases List.mem_append.mp he' with he' | he'
    · obtain ⟨j, _, rfl⟩ := List.mem_map.mp he'
      exact ⟨rfl, _, rfl, le_max_left 0 _⟩
    · rcases List.mem_singleton.mp he' with rfl
      exact ⟨rfl, _, rfl, le_max_left 0 _⟩

/-- Witness for the amended C6: the two-observation history with trailing
rate 10/minute and a 60-minute gap receives exactly one intermediate point
(here ceil(60/30) - 1 = 1) and a final point at the cycle time. -/
theorem c6_amended_witness :
    exC6.getLast? = some { datetime := some (JSDate.valid 1800000), views := some 1300 } ∧
      estimateRatePerMinute exC6 6 = some 10 ∧
      fallbackFillHistory exC6 5400000
        = exC6
          ++ (List.range 1).map (fun (j : ℕ) =>
              { datetime := some (JSDate.valid (1800000 + 1800000 * ((j : ℤ) + 1))), date := none,
                views := some (max 0 (round ((1300 : ℚ) + 10 * (30 * ((j : ℚ) + 1))))),
                predicted := true })
          ++ [{ datetime := some (JSDate.valid 5400000), date := none,
                views := some (max 0 (round ((1300 : ℚ)
                  + 10 * (((5400000 - 1800000 : ℤ) : ℚ) / 60000)))),
                predicted := true }] := by
  have hrate : estimateRatePerMinute exC6 6 = some 10 := by
    norm_num [estimateRatePerMinute, exC6, lastN, rateFromPairs, parseHistoryEntryDatetime,
      viewsNum, dateNum, List.filter]
  refine ⟨by decide, hrate, ?_⟩
  have h := (c6_amended exC6 { datetime := some (JSDate.valid 1800000), views := some 1300 }
    5400000 1800000 10 (by decide) (by decide) hrate (by decide) (by decide)).1
  rw [h]
  norm_num

end PrskTrend
